import Mathlib

/-!
Verification development for the chat-tree backend.

The definitions below are a shallow embedding of the exchange-tree data
model and its operations (`backend/models.py`), of the transcript builder
and the chat orchestration flows (`backend/main.py`), and of the error
propagation of the generation service (`backend/openai_service.py`).

Python dictionaries are embedded as association lists in insertion order
(`List (String × ExchangeNode)`), with update-in-place, insert-at-end and
delete-first-occurrence operations matching `d[k] = v` and `del d[k]`.
Python string truthiness (`if not s`, `if s and ...`) is embedded
explicitly (`none` and `""` are falsy).  The two unbounded loops in the
source — the upward walk of `get_path_to_exchange` and the recursive
descent of `delete_exchange` — are embedded with an explicit fuel
parameter; on the acyclic structures the tree operations construct,
the fuel chosen by the top-level wrappers is shown sufficient, and the
fuel-exhaustion branches are never taken (on a cyclic input the Python
originals would fail to terminate or raise `KeyError`/`RecursionError`).
-/

/-- One user/assistant exchange, mirroring `ExchangeNode` in
`backend/models.py` (the `metadata` timestamp mapping carries no
tree-structural information and is not modelled). -/
structure ExchangeNode where
  id : String
  user_content : String
  user_summary : String
  assistant_content : Option String
  assistant_summary : Option String
  assistant_loading : Bool
  is_complete : Bool
  parent_id : Option String
  children_ids : List String
deriving Repr, DecidableEq

/-- The conversation tree, mirroring `ExchangeTree` in `backend/models.py`
(`metadata` is not modelled). -/
structure ExchangeTree where
  id : String
  exchanges : List (String × ExchangeNode)
  root_id : Option String
  current_path : List String
deriving Repr, DecidableEq

/-- Dictionary lookup `d.get(k)` / `d[k]` on the insertion-ordered map. -/
def lookupEx : List (String × ExchangeNode) → String → Option ExchangeNode
  | [], _ => none
  | (k, v) :: rest, key => if k = key then some v else lookupEx rest key

/-- Membership test `k in d`. -/
def hasKey (exs : List (String × ExchangeNode)) (key : String) : Bool :=
  (lookupEx exs key).isSome

/-- Dictionary write `d[k] = v`: update in place if the key is present,
append at the end otherwise (Python dicts preserve insertion order). -/
def setEx : List (String × ExchangeNode) → String → ExchangeNode → List (String × ExchangeNode)
  | [], key, v => [(key, v)]
  | (k, w) :: rest, key, v =>
    if k = key then (k, v) :: rest else (k, w) :: setEx rest key v

/-- Dictionary delete `del d[k]`: removes the first pair carrying the key
(a no-op on a missing key, where Python would raise `KeyError`; the
operations only apply it to present keys). -/
def delKey : List (String × ExchangeNode) → String → List (String × ExchangeNode)
  | [], _ => []
  | (k, w) :: rest, key => if k = key then rest else (k, w) :: delKey rest key

/-- Python truthiness of an optional string: `None` and `""` are falsy. -/
def optNonempty : Option String → Bool
  | none => false
  | some s => !(s == "")

/-- The summary derivation expression of `ExchangeNode.model_post_init`
(`models.py` lines 47 and 51):
`(text[:50] + "...") if len(text) > 50 else text`. -/
def summarize (text : String) : String :=
  if text.length > 50 then text.take 50 ++ "..." else text

/-- The pydantic `model_post_init` hook of `ExchangeNode`
(`models.py` lines 40-54): derive `user_summary` when the provided one is
falsy, derive `assistant_summary` when assistant content is truthy and
the summary is falsy, and recompute `is_complete` as
`bool(assistant_content and not assistant_loading)`.  It runs only at
construction time — pydantic does not re-run it on attribute assignment. -/
def model_post_init (e : ExchangeNode) : ExchangeNode :=
  let e1 := if e.user_summary = "" then { e with user_summary := summarize e.user_content } else e
  let e2 :=
    if optNonempty e1.assistant_content && !(optNonempty e1.assistant_summary) then
      { e1 with assistant_summary := some (summarize (e1.assistant_content.getD "")) }
    else e1
  { e2 with is_complete := optNonempty e2.assistant_content && !e2.assistant_loading }

/-- Pydantic construction of an `ExchangeNode` as the repository performs it
(`ExchangeNode(user_content=..., user_summary=..., assistant_loading=...)`).
`user_content` and `user_summary` are required fields with no default, so
pydantic raises a `ValidationError` (modelled as `Except.error`) exactly
when one of them is missing; every provided value — including the empty
string — passes validation.  `fresh_id` stands for the
`default_factory=generate_exchange_id` uuid; `parent_id` defaults to
`None` and `children_ids` to `[]`. -/
def exchangeNodeNew (fresh_id : String) (user_content : Option String)
    (user_summary : Option String) (assistant_loading : Bool) : Except String ExchangeNode :=
  match user_content, user_summary with
  | some uc, some us =>
    .ok (model_post_init
      { id := fresh_id, user_content := uc, user_summary := us,
        assistant_content := none, assistant_summary := none,
        assistant_loading := assistant_loading, is_complete := false,
        parent_id := none, children_ids := [] })
  | _, _ => .error "ValidationError: field required"

/-- The exchange the chat endpoints construct
(`ExchangeNode(user_content=message, user_summary="", assistant_loading=True)`,
`main.py` lines 326-330 and 473-477). -/
def mkPendingExchange (fresh_id message : String) : ExchangeNode :=
  model_post_init
    { id := fresh_id, user_content := message, user_summary := "",
      assistant_content := none, assistant_summary := none,
      assistant_loading := true, is_complete := false,
      parent_id := none, children_ids := [] }

/-- `ExchangeTree.add_exchange` (`models.py` lines 99-120).  Python mutates
the passed `exchange` object in place (setting its `parent_id`) before
storing it, so the embedding returns both the updated tree and the
updated node. -/
def add_exchange (t : ExchangeTree) (exchange : ExchangeNode) (parent_id : Option String) :
    ExchangeTree × ExchangeNode :=
  match parent_id with
  | some pid =>
    let exchange1 := { exchange with parent_id := some pid }
    let exs1 :=
      match lookupEx t.exchanges pid with
      | some parent =>
        setEx t.exchanges pid { parent with children_ids := parent.children_ids ++ [exchange1.id] }
      | none => t.exchanges
    ({ t with exchanges := setEx exs1 exchange1.id exchange1 }, exchange1)
  | none =>
    match t.root_id with
    | none =>
      ({ t with root_id := some exchange.id, current_path := [exchange.id],
                exchanges := setEx t.exchanges exchange.id exchange }, exchange)
    | some _ =>
      ({ t with exchanges := setEx t.exchanges exchange.id exchange }, exchange)

/-- The upward walk of `ExchangeTree.get_path_to_exchange`
(`models.py` lines 135-144): prepend the current id, look it up, continue
with its parent.  The Python `while` loop carries no bound and would
diverge on a cyclic `parent_id` chain (the spec documents acyclicity as a
precondition); the fuel argument makes the embedding total, and the
wrapper below passes fuel that is shown sufficient on acyclic trees. -/
def pathToAux (exs : List (String × ExchangeNode)) : Nat → String → List String → List String
  | 0, cur, acc => cur :: acc
  | fuel + 1, cur, acc =>
    match lookupEx exs cur with
    | none => cur :: acc
    | some e =>
      match e.parent_id with
      | none => cur :: acc
      | some p => pathToAux exs fuel p (cur :: acc)

/-- `ExchangeTree.get_path_to_exchange` (`models.py` lines 122-144). -/
def get_path_to_exchange (t : ExchangeTree) (exchange_id : String) : List String :=
  if hasKey t.exchanges exchange_id then
    pathToAux t.exchanges (t.exchanges.length + 1) exchange_id []
  else []

/-- The parent-detach step of `ExchangeTree.delete_exchange`
(`models.py` lines 161-165): `if exchange.parent_id and exchange.parent_id
in self.exchanges`, remove the id from the parent's `children_ids`
(Python `list.remove` deletes the first occurrence).  Note the Python
truthiness test: an empty-string `parent_id` is falsy and skips the
detach. -/
def detachFromParent (exs : List (String × ExchangeNode)) (exchange : ExchangeNode)
    (exchange_id : String) : List (String × ExchangeNode) :=
  match exchange.parent_id with
  | none => exs
  | some pid =>
    if pid = "" then exs
    else
      match lookupEx exs pid with
      | none => exs
      | some parent =>
        if exchange_id ∈ parent.children_ids then
          setEx exs pid { parent with children_ids := parent.children_ids.erase exchange_id }
        else exs

/-- `ExchangeTree.delete_exchange` (`models.py` lines 146-186): detach from
the parent, recursively delete every child (iterating over a copy of the
children list taken from the stored object after the detach, as the
Python aliasing does), delete the exchange itself, then repair
`current_path` to its longest all-present prefix when the deleted id was
on it.  The recursion is embedded with fuel; the wrapper passes fuel that
is shown sufficient on acyclic trees, where the fuel-exhaustion branch
(returning the state unchanged) is never reached.  `delKey` on an absent
key is a no-op where Python would raise `KeyError`; that point is likewise
unreachable on acyclic trees. -/
def deleteExchangeFuel : Nat → ExchangeTree → String → ExchangeTree × Bool
  | 0, t, _ => (t, false)
  | fuel + 1, t, exchange_id =>
    match lookupEx t.exchanges exchange_id with
    | none => (t, false)
    | some exchange =>
      let t1 : ExchangeTree :=
        { t with exchanges := detachFromParent t.exchanges exchange exchange_id }
      let children_to_delete :=
        ((lookupEx t1.exchanges exchange_id).getD exchange).children_ids
      let t2 := children_to_delete.foldl (fun acc c => (deleteExchangeFuel fuel acc c).1) t1
      let t3 : ExchangeTree := { t2 with exchanges := delKey t2.exchanges exchange_id }
      let t4 : ExchangeTree :=
        if exchange_id ∈ t3.current_path then
          { t3 with current_path := t3.current_path.takeWhile (fun i => hasKey t3.exchanges i) }
        else t3
      (t4, true)

/-- Top-level `delete_exchange`: one fuel unit per nesting level of the
recursion; `length + 1` exceeds the depth of any acyclic tree. -/
def delete_exchange (t : ExchangeTree) (exchange_id : String) : ExchangeTree × Bool :=
  deleteExchangeFuel (t.exchanges.length + 1) t exchange_id

/-- One structural mutation of a tree, for stating reachability claims. -/
inductive TreeOp where
  | add (exchange : ExchangeNode) (parent_id : Option String)
  | del (exchange_id : String)
deriving Repr

/-- Apply one mutation. -/
def applyOp (t : ExchangeTree) : TreeOp → ExchangeTree
  | .add e p => (add_exchange t e p).1
  | .del k => (delete_exchange t k).1

/-- Apply a sequence of mutations. -/
def runOps (t : ExchangeTree) (ops : List TreeOp) : ExchangeTree :=
  ops.foldl applyOp t

/-- A freshly constructed `ExchangeTree()`: no exchanges, no root, empty
current path. -/
def emptyTree (tree_id : String) : ExchangeTree :=
  { id := tree_id, exchanges := [], root_id := none, current_path := [] }

/-- One message of the transcript sent to the generation service.  The
source builds `ConversationNode` values whose only fields consumed by
`openai_service` are `role` and `content`. -/
structure ChatMsg where
  role : String
  content : String
deriving Repr, DecidableEq

/-- The transcript builder of the chat endpoints (`main.py` lines 494-505
and 347-356): for each id on the path, look it up (silently skipping
missing ids), append a user message with the exchange's `user_content`,
and — when `ex.assistant_content and ex.is_complete` — an assistant
message with its `assistant_content`. -/
def buildHistory (exs : List (String × ExchangeNode)) (path : List String) : List ChatMsg :=
  path.foldl
    (fun acc exchange_id =>
      match lookupEx exs exchange_id with
      | none => acc
      | some ex =>
        let acc1 := acc ++ [{ role := "user", content := ex.user_content }]
        if optNonempty ex.assistant_content && ex.is_complete then
          acc1 ++ [{ role := "assistant", content := ex.assistant_content.getD "" }]
        else acc1)
    []

/-- The completion assignments the orchestrator performs on a successful
generation (`main.py` lines 516-518 and 385-387): set the content, clear
the loading flag, and set `is_complete = True` directly.  No pydantic
hook runs on these plain attribute assignments, so `assistant_summary`
is not touched (despite the comment at `main.py` line 519). -/
def orchestratorComplete (exchange : ExchangeNode) (assistant_response : String) : ExchangeNode :=
  { exchange with assistant_content := some assistant_response,
                  assistant_loading := false, is_complete := true }

/-- `OpenAIService.generate_chat_response` error propagation
(`openai_service.py` lines 99-101): any failure of the underlying API
call is re-raised as `Failed to generate response: <cause>`. -/
def generate_chat_response (apiResult : Except String String) : Except String String :=
  match apiResult with
  | .ok s => .ok s
  | .error e => .error ("Failed to generate response: " ++ e)

/-- The single-shot chat flow `send_chat_message` (`main.py` lines
431-550), from the point where the conversation has been resolved:
pick the parent (explicit request parent, else the tail of
`current_path`), construct a pending exchange, add it, recompute
`current_path`, build the transcript, then either complete the exchange
and store it (success) or surface `Chat processing failed: <cause>`
while the storage keeps the still-pending exchange (failure).  Returns
the final stored tree together with the endpoint outcome. -/
def send_chat_message (t : ExchangeTree) (fresh_id message : String)
    (requestParent : Option String) (genResult : Except String String) :
    ExchangeTree × Except String (ExchangeNode × ExchangeTree) :=
  let parent_id :=
    match requestParent with
    | some p => some p
    | none => t.current_path.getLast?
  let added := add_exchange t (mkPendingExchange fresh_id message) parent_id
  let t1 := added.1
  let exchange := added.2
  let t2 : ExchangeTree := { t1 with current_path := get_path_to_exchange t1 exchange.id }
  let _conversation_history := buildHistory t2.exchanges t2.current_path
  match genResult with
  | .error e => (t2, .error ("Chat processing failed: " ++ e))
  | .ok assistant_response =>
    let ex1 := orchestratorComplete exchange assistant_response
    let t3 : ExchangeTree := { t2 with exchanges := setEx t2.exchanges ex1.id ex1 }
    let t4 : ExchangeTree := { t3 with current_path := get_path_to_exchange t3 ex1.id }
    (t4, .ok (ex1, t4))

/-- One server-sent event of the streaming flow. -/
inductive StreamEvent where
  | exchangeCreated (exchange_id conversation_id : String)
  | content (data : String)
  | errorEvent (message : String)
  | done (exchange : ExchangeNode)
deriving Repr, DecidableEq

/-- The streaming chat flow `stream_chat_message` (`main.py` lines
300-429): same preparation as the single-shot flow, then the generator
emits an `exchange_created` event, one `content` event per fragment, and
either completes the exchange, stores it and emits `done` (the fragment
sequence ended normally) or emits an `error` event carrying the cause and
leaves the stored exchange untouched (the sequence aborted).  The
fragment source is modelled as the list of fragments delivered before the
outcome, plus an optional failure cause. -/
def stream_chat_message (t : ExchangeTree) (fresh_id conversation_id message : String)
    (requestParent : Option String) (chunks : List String) (failure : Option String) :
    ExchangeTree × List StreamEvent :=
  let parent_id :=
    match requestParent with
    | some p => some p
    | none => t.current_path.getLast?
  let added := add_exchange t (mkPendingExchange fresh_id message) parent_id
  let t1 := added.1
  let exchange := added.2
  let t2 : ExchangeTree := { t1 with current_path := get_path_to_exchange t1 exchange.id }
  let initial := StreamEvent.exchangeCreated exchange.id conversation_id
  let contentEvents := chunks.map StreamEvent.content
  match failure with
  | some msg => (t2, initial :: contentEvents ++ [.errorEvent msg])
  | none =>
    let full_response := chunks.foldl (fun a c => a ++ c) ""
    let ex1 := orchestratorComplete exchange full_response
    let t3 : ExchangeTree := { t2 with exchanges := setEx t2.exchanges ex1.id ex1 }
    let t4 : ExchangeTree := { t3 with current_path := get_path_to_exchange t3 ex1.id }
    (t4, initial :: contentEvents ++ [.done ex1])

/-- Recognizer for a mutation that calls `add_exchange` with a null
parent (the only kind of call that can assign `root_id`). -/
def isNullParentAdd : TreeOp → Bool
  | .add _ none => true
  | _ => false

/-- The per-exchange message block the transcript builder emits: the
user message, then the assistant message exactly when
`ex.assistant_content and ex.is_complete` is truthy. -/
def transcriptMsgs (exs : List (String × ExchangeNode)) (exchange_id : String) : List ChatMsg :=
  match lookupEx exs exchange_id with
  | none => []
  | some ex =>
    { role := "user", content := ex.user_content } ::
      (if optNonempty ex.assistant_content && ex.is_complete then
        [{ role := "assistant", content := ex.assistant_content.getD "" }]
      else [])

/-- The exchange stored under `i` exists and satisfies the transcript
builder's assistant-emission condition (`ex.assistant_content and
ex.is_complete` truthy). -/
def completedAt (exs : List (String × ExchangeNode)) (i : String) : Prop :=
  ((lookupEx exs i).map fun ex => optNonempty ex.assistant_content && ex.is_complete) = some true

instance (exs : List (String × ExchangeNode)) (i : String) : Decidable (completedAt exs i) := by
  unfold completedAt; infer_instance

/-- Universal quantification over an optional value, packaged so that it
is decidable when the body is. -/
def OptAll (o : Option String) (P : String → Prop) : Prop :=
  ∀ v, o = some v → P v

instance (o : Option String) (P : String → Prop) [DecidablePred P] :
    Decidable (OptAll o P) :=
  match o with
  | none => isTrue (fun v h => nomatch h)
  | some w =>
    if h : P w then
      isTrue (fun v hv => by cases hv; exact h)
    else
      isFalse (fun hall => h (hall w rfl))

/-- Universal quantification over an optional exchange, packaged so that
it is decidable when the body is. -/
def OptAllNode (o : Option ExchangeNode) (P : ExchangeNode → Prop) : Prop :=
  ∀ v, o = some v → P v

instance (o : Option ExchangeNode) (P : ExchangeNode → Prop) [DecidablePred P] :
    Decidable (OptAllNode o P) :=
  match o with
  | none => isTrue (fun v h => nomatch h)
  | some w =>
    if h : P w then
      isTrue (fun v hv => by cases hv; exact h)
    else
      isFalse (fun hall => h (hall w rfl))

/-- Keys of the exchange map are pairwise distinct (Python dictionaries
guarantee this; the association-list embedding states it explicitly). -/
def NodupKeys (exs : List (String × ExchangeNode)) : Prop :=
  (exs.map Prod.fst).Nodup

instance (exs : List (String × ExchangeNode)) : Decidable (NodupKeys exs) := by
  unfold NodupKeys; infer_instance

/-- The entry stored under `c` points back to `k` as its parent. -/
def childLinked (exs : List (String × ExchangeNode)) (k c : String) : Prop :=
  (lookupEx exs c).bind ExchangeNode.parent_id = some k

instance (exs : List (String × ExchangeNode)) (k c : String) :
    Decidable (childLinked exs k c) := by
  unfold childLinked; infer_instance

/-- Downward well-formedness: keys are non-empty strings, children lists
have no duplicates, and every listed child resolves to an entry whose
`parent_id` points back at the listing key. -/
def ChildrenOk (exs : List (String × ExchangeNode)) : Prop :=
  ∀ kv ∈ exs, kv.1 ≠ "" ∧ kv.2.children_ids.Nodup ∧
    ∀ c ∈ kv.2.children_ids, childLinked exs kv.1 c

instance (exs : List (String × ExchangeNode)) : Decidable (ChildrenOk exs) := by
  unfold ChildrenOk; infer_instance

/-- A rank function witnessing acyclicity of the children graph: every
listed child ranks strictly below its parent. -/
def RankOk (exs : List (String × ExchangeNode)) (rank : String → Nat) : Prop :=
  ∀ kv ∈ exs, ∀ c ∈ kv.2.children_ids, rank c < rank kv.1

instance (exs : List (String × ExchangeNode)) (rank : String → Nat) :
    Decidable (RankOk exs rank) := by
  unfold RankOk; infer_instance

/-- Ranks are bounded by the number of exchanges. -/
def RankBound (exs : List (String × ExchangeNode)) (rank : String → Nat) : Prop :=
  ∀ kv ∈ exs, rank kv.1 ≤ exs.length

instance (exs : List (String × ExchangeNode)) (rank : String → Nat) :
    Decidable (RankBound exs rank) := by
  unfold RankBound; infer_instance

/-- Every resolvable parent pointer is mirrored in the parent's children
list (the other half of the bidirectional-consistency invariant). -/
def ParentBackOk (exs : List (String × ExchangeNode)) : Prop :=
  ∀ kv ∈ exs, OptAll kv.2.parent_id fun p =>
    OptAllNode (lookupEx exs p) fun pe => kv.1 ∈ pe.children_ids

instance (exs : List (String × ExchangeNode)) : Decidable (ParentBackOk exs) := by
  unfold ParentBackOk; infer_instance

/-- Upward well-formedness: every parent pointer resolves, and parents
rank strictly above their children. -/
def ParentsOk (exs : List (String × ExchangeNode)) (rank : String → Nat) : Prop :=
  ∀ kv ∈ exs, OptAll kv.2.parent_id fun p =>
    (lookupEx exs p).isSome = true ∧ rank kv.1 < rank p

instance (exs : List (String × ExchangeNode)) (rank : String → Nat) :
    Decidable (ParentsOk exs rank) := by
  unfold ParentsOk; infer_instance

/-- A parentless exchange is the tree's root. -/
def RootOk (exs : List (String × ExchangeNode)) (root_id : Option String) : Prop :=
  ∀ kv ∈ exs, kv.2.parent_id = none → root_id = some kv.1

instance (exs : List (String × ExchangeNode)) (root_id : Option String) :
    Decidable (RootOk exs root_id) := by
  unfold RootOk; infer_instance

/-- Descendant reachability through `children_ids` links: `ChildReach exs
d x` holds when `x` is `d` itself or is reachable from `d` by following
stored children lists.  This is the notion of "descendant" the deletion
claim quantifies over. -/
inductive ChildReach (exs : List (String × ExchangeNode)) : String → String → Prop
  | refl (d : String) : ChildReach exs d d
  | step {d c x : String} (e : ExchangeNode) :
      lookupEx exs d = some e → c ∈ e.children_ids → ChildReach exs c x → ChildReach exs d x

/-- The adjustment deletion makes to a surviving entry: if it listed the
deleted id among its children, that one occurrence is removed. -/
def childErased (d : String) (e : ExchangeNode) : ExchangeNode :=
  if d ∈ e.children_ids then { e with children_ids := e.children_ids.erase d } else e

/-- Erase each listed id (first occurrence) from a children list. -/
def eraseAll (l : List String) (cs : List String) : List String :=
  cs.foldl (fun acc c => acc.erase c) l

/-- The cumulative adjustment a sequence of deletions makes to an entry's
children list. -/
def childrenErasedAll (cs : List String) (e : ExchangeNode) : ExchangeNode :=
  { e with children_ids := eraseAll e.children_ids cs }

/-- `ChildrenOk` phrased through lookups (the form the deletion invariant
is carried in; on nodup keys the two are interchangeable). -/
def LookChildrenOk (exs : List (String × ExchangeNode)) : Prop :=
  ∀ k e, lookupEx exs k = some e → k ≠ "" ∧ e.children_ids.Nodup ∧
    ∀ c ∈ e.children_ids, childLinked exs k c

/-- `RankOk` phrased through lookups. -/
def LookRankOk (exs : List (String × ExchangeNode)) (rank : String → Nat) : Prop :=
  ∀ k e, lookupEx exs k = some e → ∀ c ∈ e.children_ids, rank c < rank k

/-- A sample exchange used by concrete witnesses below. -/
def sampleNode (node_id : String) (parent : Option String) (children : List String) :
    ExchangeNode :=
  { id := node_id, user_content := "hello", user_summary := "hello",
    assistant_content := none, assistant_summary := none,
    assistant_loading := false, is_complete := false,
    parent_id := parent, children_ids := children }

/-- A sample three-exchange chain a → b → c used by concrete witnesses:
root "a" with child "b", which has child "c"; the current path visits all
three. -/
def sampleChain : ExchangeTree :=
  { id := "t",
    exchanges :=
      [("a", sampleNode "a" none ["b"]),
       ("b", sampleNode "b" (some "a") ["c"]),
       ("c", sampleNode "c" (some "b") [])],
    root_id := some "a",
    current_path := ["a", "b", "c"] }

/-- A rank function for `sampleChain`. -/
def sampleRank (k : String) : Nat :=
  if k = "a" then 2 else if k = "b" then 1 else 0
theorem lookupEx_setEx_self (exs : List (String × ExchangeNode)) (k : String)
    (v : ExchangeNode) : lookupEx (setEx exs k v) k = some v := by
  induction exs with
  | nil => simp [setEx, lookupEx]
  | cons hd tl ih =>
    obtain ⟨k', w⟩ := hd
    by_cases h : k' = k <;> simp [setEx, lookupEx, h, ih]

theorem lookupEx_setEx_ne (exs : List (String × ExchangeNode)) (k x : String)
    (v : ExchangeNode) (hx : x ≠ k) : lookupEx (setEx exs k v) x = lookupEx exs x := by
  induction exs with
  | nil => simp [setEx, lookupEx, Ne.symm hx]
  | cons hd tl ih =>
    obtain ⟨k', w⟩ := hd
    by_cases h : k' = k
    · subst h
      simp [setEx, lookupEx, Ne.symm hx]
    · simp only [setEx, if_neg h]
      by_cases h2 : k' = x <;> simp [lookupEx, h2, ih]

theorem lookupEx_delKey_ne (exs : List (String × ExchangeNode)) (k x : String)
    (hx : x ≠ k) : lookupEx (delKey exs k) x = lookupEx exs x := by
  induction exs with
  | nil => simp [delKey]
  | cons hd tl ih =>
    obtain ⟨k', w⟩ := hd
    by_cases h : k' = k
    · subst h
      simp [delKey, lookupEx, Ne.symm hx, ih]
    · by_cases h2 : k' = x <;> simp [delKey, lookupEx, h, h2, hx, ih]

theorem mem_of_lookupEx_eq_some {exs : List (String × ExchangeNode)} {k : String}
    {v : ExchangeNode} (h : lookupEx exs k = some v) : (k, v) ∈ exs := by
  induction exs with
  | nil => simp [lookupEx] at h
  | cons hd tl ih =>
    obtain ⟨k', w⟩ := hd
    by_cases hk : k' = k
    · subst hk
      simp [lookupEx] at h
      simp [h]
    · simp [lookupEx, hk] at h
      exact List.mem_cons_of_mem _ (ih h)

theorem keys_setEx_of_hasKey (exs : List (String × ExchangeNode)) (k : String)
    (v : ExchangeNode) (h : hasKey exs k = true) :
    (setEx exs k v).map Prod.fst = exs.map Prod.fst := by
  induction exs with
  | nil => simp [hasKey, lookupEx] at h
  | cons hd tl ih =>
    obtain ⟨k', w⟩ := hd
    by_cases hk : k' = k
    · simp [setEx, hk]
    · simp only [hasKey, lookupEx, if_neg hk] at h
      simp [setEx, hk, ih h]

theorem hasKey_setEx (exs : List (String × ExchangeNode)) (k x : String) (v : ExchangeNode) :
    hasKey (setEx exs k v) x = (hasKey exs x || decide (x = k)) := by
  by_cases hx : x = k
  · subst hx
    simp [hasKey, lookupEx_setEx_self]
  · simp [hasKey, lookupEx_setEx_ne exs k x v hx, hx]

theorem mem_setEx {exs : List (String × ExchangeNode)} {k : String} {v : ExchangeNode}
    {kv : String × ExchangeNode} (h : kv ∈ setEx exs k v) : kv ∈ exs ∨ kv = (k, v) := by
  induction exs with
  | nil => simp [setEx] at h; simp [h]
  | cons hd tl ih =>
    obtain ⟨k', w⟩ := hd
    by_cases hk : k' = k
    · subst hk
      simp only [setEx, if_pos rfl] at h
      rcases List.mem_cons.mp h with h | h
      · right; exact h
      · left; exact List.mem_cons_of_mem _ h
    · simp only [setEx, if_neg hk] at h
      rcases List.mem_cons.mp h with h | h
      · left; simp [h]
      · rcases ih h with h | h
        · left; exact List.mem_cons_of_mem _ h
        · right; exact h

theorem mem_delKey {exs : List (String × ExchangeNode)} {k : String}
    {kv : String × ExchangeNode} (h : kv ∈ delKey exs k) : kv ∈ exs := by
  induction exs with
  | nil => simp [delKey] at h
  | cons hd tl ih =>
    obtain ⟨k', w⟩ := hd
    by_cases hk : k' = k
    · subst hk
      simp only [delKey, if_pos rfl] at h
      exact List.mem_cons_of_mem _ h
    · simp only [delKey, if_neg hk] at h
      rcases List.mem_cons.mp h with h | h
      · simp [h]
      · exact List.mem_cons_of_mem _ (ih h)

theorem keys_delKey_sublist (exs : List (String × ExchangeNode)) (k : String) :
    ((delKey exs k).map Prod.fst).Sublist (exs.map Prod.fst) := by
  induction exs with
  | nil => simp [delKey]
  | cons hd tl ih =>
    obtain ⟨k', w⟩ := hd
    by_cases hk : k' = k
    · simp only [delKey, if_pos hk, List.map_cons]
      exact List.Sublist.cons _ (List.Sublist.refl _)
    · simp only [delKey, if_neg hk, List.map_cons]
      exact List.Sublist.cons₂ _ ih

theorem lookupEx_delKey_self (exs : List (String × ExchangeNode)) (k : String)
    (h : (exs.map Prod.fst).Nodup) : lookupEx (delKey exs k) k = none := by
  induction exs with
  | nil => simp [delKey, lookupEx]
  | cons hd tl ih =>
    obtain ⟨k', w⟩ := hd
    simp only [List.map_cons, List.nodup_cons] at h
    by_cases hk : k' = k
    · subst hk
      simp only [delKey, if_pos rfl]
      cases hcase : lookupEx tl k' with
      | none => exact hcase
      | some v => exact absurd (List.mem_map_of_mem Prod.fst (mem_of_lookupEx_eq_some hcase)) h.1
    · simp [delKey, lookupEx, hk, ih h.2]

theorem lookupEx_isSome_of_mem_keys {exs : List (String × ExchangeNode)} {k : String}
    (h : k ∈ exs.map Prod.fst) : (lookupEx exs k).isSome = true := by
  induction exs with
  | nil => simp at h
  | cons hd tl ih =>
    obtain ⟨k', w⟩ := hd
    by_cases hk : k' = k
    · simp [lookupEx, hk]
    · simp only [List.map_cons, List.mem_cons] at h
      rcases h with h | h
      · exact absurd h.symm hk
      · simp [lookupEx, hk, ih h]


theorem mkPendingExchange_fields (fresh_id message : String) :
    (mkPendingExchange fresh_id message).id = fresh_id ∧
    (mkPendingExchange fresh_id message).assistant_loading = true ∧
    (mkPendingExchange fresh_id message).is_complete = false ∧
    (mkPendingExchange fresh_id message).assistant_content = none ∧
    (mkPendingExchange fresh_id message).parent_id = none := by
  simp [mkPendingExchange, model_post_init, optNonempty]

theorem add_exchange_self (t : ExchangeTree) (e : ExchangeNode) (pid : Option String) :
    ∃ q, (add_exchange t e pid).2 = { e with parent_id := q } ∧
      lookupEx (add_exchange t e pid).1.exchanges e.id = some { e with parent_id := q } := by
  match pid with
  | some p =>
    refine ⟨some p, rfl, ?_⟩
    simp only [add_exchange]
    exact lookupEx_setEx_self _ _ _
  | none =>
    refine ⟨e.parent_id, ?_, ?_⟩ <;> cases h : t.root_id <;>
      simp only [add_exchange, h] <;>
      first
        | rfl
        | exact lookupEx_setEx_self _ _ _

theorem model_post_init_user_summary (e : ExchangeNode) :
    (model_post_init e).user_summary =
      if e.user_summary = "" then summarize e.user_content else e.user_summary := by
  by_cases hus : e.user_summary = "" <;>
    · simp only [model_post_init, hus, if_true, if_false, reduceIte]
      split <;> rfl

theorem model_post_init_assistant_summary (e : ExchangeNode) :
    (model_post_init e).assistant_summary =
      if optNonempty e.assistant_content && !(optNonempty e.assistant_summary) then
        some (summarize (e.assistant_content.getD ""))
      else e.assistant_summary := by
  by_cases hus : e.user_summary = "" <;>
    by_cases hc : (optNonempty e.assistant_content && !(optNonempty e.assistant_summary)) = true <;>
      simp [model_post_init, hus, hc]

theorem model_post_init_is_complete (e : ExchangeNode) :
    (model_post_init e).is_complete = (optNonempty e.assistant_content && !e.assistant_loading) := by
  by_cases hus : e.user_summary = "" <;>
    by_cases hc : (optNonempty e.assistant_content && !(optNonempty e.assistant_summary)) = true <;>
      simp [model_post_init, hus, hc]

theorem model_post_init_frame (e : ExchangeNode) :
    (model_post_init e).id = e.id ∧
    (model_post_init e).user_content = e.user_content ∧
    (model_post_init e).assistant_content = e.assistant_content ∧
    (model_post_init e).assistant_loading = e.assistant_loading ∧
    (model_post_init e).parent_id = e.parent_id ∧
    (model_post_init e).children_ids = e.children_ids := by
  by_cases hus : e.user_summary = "" <;>
    by_cases hc : (optNonempty e.assistant_content && !(optNonempty e.assistant_summary)) = true <;>
      simp [model_post_init, hus, hc]

theorem summarize_spec (text : String) :
    summarize text = if text.length ≤ 50 then text else text.take 50 ++ "..." := by
  unfold summarize
  by_cases h : text.length ≤ 50
  · rw [if_neg (by omega), if_pos h]
  · rw [if_pos (by omega), if_neg h]

/-- C3 counterexample: the claim says construction with an empty
`user_content` fails with a `ValidationError`, but pydantic only checks
that required fields are present — `ExchangeNode(user_content="",
user_summary="")` validates successfully and yields a normal exchange. -/
theorem c3_empty_content_accepted :
    exchangeNodeNew "n1" (some "") (some "") false
      = .ok { id := "n1", user_content := "", user_summary := "",
              assistant_content := none, assistant_summary := none,
              assistant_loading := false, is_complete := false,
              parent_id := none, children_ids := [] } := by
  rfl

/-- C3 (amended): construction fails with a `ValidationError` exactly when
a required field (`user_content`, or `user_summary`, which the model also
declares without a default) is missing; for every provided
`user_content` — empty or not — construction succeeds and yields an
exchange with the fresh id, `parent_id` unset and empty `children_ids`. -/
theorem c3_construction (fresh_id user_content user_summary : String)
    (assistant_loading : Bool) :
    (exchangeNodeNew fresh_id none (some user_summary) assistant_loading
      = .error "ValidationError: field required") ∧
    (exchangeNodeNew fresh_id (some user_content) none assistant_loading
      = .error "ValidationError: field required") ∧
    (∃ n, exchangeNodeNew fresh_id (some user_content) (some user_summary) assistant_loading
        = .ok n ∧ n.id = fresh_id ∧ n.parent_id = none ∧ n.children_ids = []
        ∧ n.user_content = user_content) := by
  refine ⟨rfl, rfl, _, rfl, ?_, ?_, ?_, ?_⟩ <;>
    simp [model_post_init_frame]

/-- C5 (code evaluation at the failing input): completing a pending
exchange the way the orchestrator does (`main.py` lines 516-518) attaches
the assistant content, clears the loading flag and forces
`is_complete = True`, but `assistant_summary` stays `None` — the pydantic
`model_post_init` hook that would derive it only runs at construction,
contrary to the comment at `main.py` line 519. -/
theorem c5_completion_keeps_summary_none :
    (orchestratorComplete (mkPendingExchange "e1" "hi") "Hello there").assistant_content
      = some "Hello there" ∧
    (orchestratorComplete (mkPendingExchange "e1" "hi") "Hello there").assistant_loading
      = false ∧
    (orchestratorComplete (mkPendingExchange "e1" "hi") "Hello there").is_complete = true ∧
    (orchestratorComplete (mkPendingExchange "e1" "hi") "Hello there").assistant_summary
      = none := by
  decide

/-- C9: the summary derivation of `model_post_init`, for the user summary
and (whenever it fires, i.e. on non-empty assistant content) the
assistant summary: inputs of length at most 50 are kept verbatim, longer
inputs are truncated to their first 50 characters followed by the
ellipsis marker, independent of content. -/
theorem c9_summary_derivation (text : String) :
    ((model_post_init
        { id := "i", user_content := text, user_summary := "",
          assistant_content := some text, assistant_summary := none,
          assistant_loading := false, is_complete := false,
          parent_id := none, children_ids := [] }).user_summary
      = if text.length ≤ 50 then text else text.take 50 ++ "...") ∧
    (text ≠ "" →
      (model_post_init
        { id := "i", user_content := text, user_summary := "",
          assistant_content := some text, assistant_summary := none,
          assistant_loading := false, is_complete := false,
          parent_id := none, children_ids := [] }).assistant_summary
      = some (if text.length ≤ 50 then text else text.take 50 ++ "...")) := by
  constructor
  · rw [model_post_init_user_summary]
    simp [summarize_spec]
  · intro hne
    rw [model_post_init_assistant_summary]
    simp [optNonempty, hne, summarize_spec]

/-- C9 witness at a 60-character input. -/
theorem c9_summary_derivation_witness :
    ("qqqqqqqqqqqqqqqqqqqqqqqqqqqqqqqqqqqqqqqqqqqqqqqqqqqqqqqqqqqq" ≠ "") ∧
    ((model_post_init
        { id := "i",
          user_content := "qqqqqqqqqqqqqqqqqqqqqqqqqqqqqqqqqqqqqqqqqqqqqqqqqqqqqqqqqqqq",
          user_summary := "",
          assistant_content := some "qqqqqqqqqqqqqqqqqqqqqqqqqqqqqqqqqqqqqqqqqqqqqqqqqqqqqqqqqqqq",
          assistant_summary := none,
          assistant_loading := false, is_complete := false,
          parent_id := none, children_ids := [] }).assistant_summary
      = some (if ("qqqqqqqqqqqqqqqqqqqqqqqqqqqqqqqqqqqqqqqqqqqqqqqqqqqqqqqqqqqq" : String).length ≤ 50
              then "qqqqqqqqqqqqqqqqqqqqqqqqqqqqqqqqqqqqqqqqqqqqqqqqqqqqqqqqqqqq"
              else ("qqqqqqqqqqqqqqqqqqqqqqqqqqqqqqqqqqqqqqqqqqqqqqqqqqqqqqqqqqqq" : String).take 50 ++ "...")) :=
  ⟨by decide,
   (c9_summary_derivation "qqqqqqqqqqqqqqqqqqqqqqqqqqqqqqqqqqqqqqqqqqqqqqqqqqqqqqqqqqqq").2
     (by decide)⟩

/-- C10: frame condition of `add_exchange` with a present non-null parent
and a fresh exchange id — the only state changes are the insertion of the
exchange (with its `parent_id` set) and the append of its id to the
parent's `children_ids`; `root_id`, `current_path`, the tree id, every
other exchange, and every other field of the parent are unchanged. -/
theorem c10_add_exchange_frame (t : ExchangeTree) (e pe : ExchangeNode) (p : String)
    (hp : lookupEx t.exchanges p = some pe) (hfresh : lookupEx t.exchanges e.id = none) :
    (add_exchange t e (some p)).2 = { e with parent_id := some p } ∧
    (add_exchange t e (some p)).1.root_id = t.root_id ∧
    (add_exchange t e (some p)).1.current_path = t.current_path ∧
    (add_exchange t e (some p)).1.id = t.id ∧
    lookupEx (add_exchange t e (some p)).1.exchanges e.id
      = some { e with parent_id := some p } ∧
    lookupEx (add_exchange t e (some p)).1.exchanges p
      = some { pe with children_ids := pe.children_ids ++ [e.id] } ∧
    (∀ k, k ≠ e.id → k ≠ p →
      lookupEx (add_exchange t e (some p)).1.exchanges k = lookupEx t.exchanges k) := by
  have hne : p ≠ e.id := by
    intro h
    rw [h, hfresh] at hp
    cases hp
  refine ⟨rfl, rfl, rfl, rfl, ?_, ?_, ?_⟩
  · simp only [add_exchange, hp]
    exact lookupEx_setEx_self _ _ _
  · simp only [add_exchange, hp]
    rw [lookupEx_setEx_ne _ _ _ _ hne]
    exact lookupEx_setEx_self _ _ _
  · intro k hk1 hk2
    simp only [add_exchange, hp]
    rw [lookupEx_setEx_ne _ _ _ _ hk1, lookupEx_setEx_ne _ _ _ _ hk2]

/-- C10 witness on the sample chain: adding a fresh exchange "d" under
parent "b". -/
theorem c10_add_exchange_frame_witness :
    (lookupEx sampleChain.exchanges "b" = some (sampleNode "b" (some "a") ["c"]) ∧
     lookupEx sampleChain.exchanges "d" = none) ∧
    ((add_exchange sampleChain (sampleNode "d" none []) (some "b")).2
        = { sampleNode "d" none [] with parent_id := some "b" } ∧
      (add_exchange sampleChain (sampleNode "d" none []) (some "b")).1.root_id
        = sampleChain.root_id ∧
      (add_exchange sampleChain (sampleNode "d" none []) (some "b")).1.current_path
        = sampleChain.current_path ∧
      (add_exchange sampleChain (sampleNode "d" none []) (some "b")).1.id = sampleChain.id ∧
      lookupEx (add_exchange sampleChain (sampleNode "d" none []) (some "b")).1.exchanges
          (sampleNode "d" none []).id
        = some { sampleNode "d" none [] with parent_id := some "b" } ∧
      lookupEx (add_exchange sampleChain (sampleNode "d" none []) (some "b")).1.exchanges "b"
        = some { sampleNode "b" (some "a") ["c"] with
                   children_ids := (sampleNode "b" (some "a") ["c"]).children_ids
                     ++ [(sampleNode "d" none []).id] } ∧
      (∀ k, k ≠ (sampleNode "d" none []).id → k ≠ "b" →
        lookupEx (add_exchange sampleChain (sampleNode "d" none []) (some "b")).1.exchanges k
          = lookupEx sampleChain.exchanges k)) :=
  ⟨⟨by decide, by decide⟩,
   c10_add_exchange_frame sampleChain (sampleNode "d" none [])
     (sampleNode "b" (some "a") ["c"]) "b" (by decide) (by decide)⟩

theorem add_exchange_id (t : ExchangeTree) (e : ExchangeNode) (pid : Option String) :
    (add_exchange t e pid).2.id = e.id := by
  cases pid with
  | some p => rfl
  | none => cases h : t.root_id <;> simp [add_exchange, h]

/-- C6: on a generation failure the orchestrator surfaces an error that
carries the cause and leaves the stored exchange pending — in the
single-shot flow the endpoint fails with `Chat processing failed:
<cause>` (the cause itself wrapping the service's `Failed to generate
response: ...` text), and in the streaming flow the event stream ends
with an `error` event carrying the cause; in both flows the exchange
stored for the request keeps `assistant_loading = true` (the spec's
`assistant_pending`), `is_complete = false` and no assistant content. -/
theorem c6_generation_failure (t : ExchangeTree)
    (fresh_id conversation_id message cause : String)
    (requestParent : Option String) (chunks : List String) :
    ((send_chat_message t fresh_id message requestParent (.error cause)).2
      = .error ("Chat processing failed: " ++ cause)) ∧
    (∃ ex,
      lookupEx (send_chat_message t fresh_id message requestParent
          (.error cause)).1.exchanges fresh_id = some ex ∧
        ex.assistant_loading = true ∧ ex.is_complete = false ∧ ex.assistant_content = none) ∧
    ((stream_chat_message t fresh_id conversation_id message requestParent chunks
        (some cause)).2
      = .exchangeCreated fresh_id conversation_id
          :: (chunks.map .content ++ [.errorEvent cause])) ∧
    (∃ ex,
      lookupEx (stream_chat_message t fresh_id conversation_id message requestParent chunks
          (some cause)).1.exchanges fresh_id = some ex ∧
        ex.assistant_loading = true ∧ ex.is_complete = false ∧ ex.assistant_content = none) := by
  obtain ⟨hid, hload, hic, hcont, -⟩ := mkPendingExchange_fields fresh_id message
  obtain ⟨q, hq2, hqlook⟩ := add_exchange_self t (mkPendingExchange fresh_id message)
    (match requestParent with | some p => some p | none => t.current_path.getLast?)
  rw [hid] at hqlook
  refine ⟨rfl,
    ⟨{ mkPendingExchange fresh_id message with parent_id := q }, hqlook,
      by simpa using hload, by simpa using hic, by simpa using hcont⟩,
    ?_,
    ⟨{ mkPendingExchange fresh_id message with parent_id := q }, hqlook,
      by simpa using hload, by simpa using hic, by simpa using hcont⟩⟩
  simp only [stream_chat_message, add_exchange_id, hid]
  rfl

theorem buildHistory_gen (exs : List (String × ExchangeNode)) :
    ∀ (path : List String) (acc : List ChatMsg),
      path.foldl
        (fun acc exchange_id =>
          match lookupEx exs exchange_id with
          | none => acc
          | some ex =>
            let acc1 := acc ++ [{ role := "user", content := ex.user_content }]
            if optNonempty ex.assistant_content && ex.is_complete then
              acc1 ++ [{ role := "assistant", content := ex.assistant_content.getD "" }]
            else acc1)
        acc
      = acc ++ path.flatMap (transcriptMsgs exs) := by
  intro path
  induction path with
  | nil => intro acc; simp
  | cons i p ih =>
    intro acc
    simp only [List.foldl_cons, List.flatMap_cons]
    rw [ih]
    cases hl : lookupEx exs i with
    | none => simp [transcriptMsgs, hl]
    | some ex =>
      simp only [transcriptMsgs, hl]
      by_cases hc : (optNonempty ex.assistant_content && ex.is_complete) = true <;>
        simp [hc]

theorem buildHistory_eq_flatMap (exs : List (String × ExchangeNode)) (path : List String) :
    buildHistory exs path = path.flatMap (transcriptMsgs exs) := by
  unfold buildHistory
  exact buildHistory_gen exs path []

theorem completedAt_transcriptMsgs {exs : List (String × ExchangeNode)} {i : String}
    (h : completedAt exs i) :
    ∃ ex, lookupEx exs i = some ex ∧
      transcriptMsgs exs i =
        [{ role := "user", content := ex.user_content },
         { role := "assistant", content := ex.assistant_content.getD "" }] := by
  unfold completedAt at h
  cases hl : lookupEx exs i with
  | none => rw [hl] at h; cases h
  | some ex =>
    rw [hl] at h
    simp only [Option.map_some'] at h
    refine ⟨ex, rfl, ?_⟩
    simp only [transcriptMsgs, hl]
    rw [if_pos (by simpa using h)]

/-- C7 counterexample: an exchange completed with an empty assistant
response (the generation service can return one — a whitespace-only
completion survives its emptiness check and is stripped to `""`) has
`is_complete = true`, yet the transcript built over it carries no
assistant message: the builder requires `assistant_content` to be truthy
as well, so "assistant message if and only if is_complete" fails. -/
theorem c7_assistant_message_not_iff_complete :
    (orchestratorComplete (mkPendingExchange "a" "hi") "").is_complete = true ∧
    buildHistory [("a", orchestratorComplete (mkPendingExchange "a" "hi") "")] ["a"]
      = [{ role := "user", content := "hi" }] := by
  decide

/-- C7 (amended): the transcript over a path is the concatenation, in
path order, of one block per path entry — missing ids contribute nothing,
a present exchange contributes its user message followed by an assistant
message exactly when its `assistant_content` is non-empty AND it
`is_complete`; consequently, over a path all of whose entries satisfy
that condition (in particular `path_to(leaf)` for a linear chain of N
exchanges completed with non-empty content), the transcript has exactly
2N messages with roles alternating user, assistant. -/
theorem c7_transcript_shape (exs : List (String × ExchangeNode)) (path : List String) :
    (buildHistory exs path = path.flatMap (transcriptMsgs exs)) ∧
    ((∀ i ∈ path, completedAt exs i) →
      (buildHistory exs path).length = 2 * path.length ∧
      (buildHistory exs path).map ChatMsg.role = path.flatMap (fun _ => ["user", "assistant"])) := by
  refine ⟨buildHistory_eq_flatMap exs path, ?_⟩
  intro hall
  rw [buildHistory_eq_flatMap]
  induction path with
  | nil => simp
  | cons i p ih =>
    have hi := hall i (List.mem_cons_self i p)
    have hrest := fun j hj => hall j (List.mem_cons_of_mem i hj)
    obtain ⟨ex, hex, hmsgs⟩ := completedAt_transcriptMsgs hi
    obtain ⟨ihlen, ihroles⟩ := ih hrest
    constructor
    · rw [List.flatMap_cons, hmsgs, List.length_append, ihlen]
      simp
      omega
    · simp only [List.flatMap_cons, hmsgs, List.map_append, ihroles]
      rfl

/-- C7 witness: a single-exchange path completed with non-empty content
yields exactly two messages, user then assistant. -/
theorem c7_transcript_shape_witness :
    (∀ i ∈ ["a"], completedAt [("a", orchestratorComplete (mkPendingExchange "a" "hi") "yo")] i) ∧
    ((buildHistory [("a", orchestratorComplete (mkPendingExchange "a" "hi") "yo")] ["a"]).length
        = 2 * (["a"] : List String).length ∧
      (buildHistory [("a", orchestratorComplete (mkPendingExchange "a" "hi") "yo")] ["a"]).map
          ChatMsg.role
        = (["a"] : List String).flatMap (fun _ => ["user", "assistant"])) :=
  ⟨by decide,
   (c7_transcript_shape [("a", orchestratorComplete (mkPendingExchange "a" "hi") "yo")] ["a"]).2
     (by decide)⟩

theorem deleteExchangeFuel_keeps_root : ∀ (fuel : Nat) (t : ExchangeTree) (d : String),
    (deleteExchangeFuel fuel t d).1.root_id = t.root_id ∧
    (deleteExchangeFuel fuel t d).1.id = t.id := by
  intro fuel
  induction fuel with
  | zero => intro t d; exact ⟨rfl, rfl⟩
  | succ fuel ih =>
    intro t d
    have hfold : ∀ (cs : List String) (s : ExchangeTree),
        (cs.foldl (fun acc c => (deleteExchangeFuel fuel acc c).1) s).root_id = s.root_id ∧
        (cs.foldl (fun acc c => (deleteExchangeFuel fuel acc c).1) s).id = s.id := by
      intro cs
      induction cs with
      | nil => intro s; exact ⟨rfl, rfl⟩
      | cons c cs ihc =>
        intro s
        obtain ⟨h1r, h1i⟩ := ih s c
        obtain ⟨h2r, h2i⟩ := ihc (deleteExchangeFuel fuel s c).1
        simp only [List.foldl_cons]
        exact ⟨h2r.trans h1r, h2i.trans h1i⟩
    cases hl : lookupEx t.exchanges d with
    | none => simp [deleteExchangeFuel, hl]
    | some e =>
      simp only [deleteExchangeFuel, hl]
      obtain ⟨hr, hi⟩ := hfold
        (((lookupEx (detachFromParent t.exchanges e d) d).getD e).children_ids)
        { t with exchanges := detachFromParent t.exchanges e d }
      constructor <;> · split <;> simpa using by first | exact hr | exact hi

theorem delete_exchange_keeps_root (t : ExchangeTree) (d : String) :
    (delete_exchange t d).1.root_id = t.root_id ∧ (delete_exchange t d).1.id = t.id :=
  deleteExchangeFuel_keeps_root _ t d

theorem applyOp_root_id (t : ExchangeTree) (op : TreeOp) :
    ((applyOp t op).root_id ≠ none) ↔ (t.root_id ≠ none ∨ isNullParentAdd op = true) := by
  cases op with
  | add e p =>
    cases p with
    | some pid => simp [applyOp, add_exchange, isNullParentAdd]
    | none =>
      cases hr : t.root_id with
      | none => simp [applyOp, add_exchange, hr, isNullParentAdd]
      | some r => simp [applyOp, add_exchange, hr, isNullParentAdd]
  | del k =>
    simp [applyOp, isNullParentAdd, (delete_exchange_keeps_root t k).1]

theorem runOps_root_id : ∀ (ops : List TreeOp) (t : ExchangeTree),
    ((runOps t ops).root_id ≠ none) ↔
      (t.root_id ≠ none ∨ ∃ op ∈ ops, isNullParentAdd op = true) := by
  intro ops
  induction ops with
  | nil => intro t; simp [runOps]
  | cons op ops ih =>
    intro t
    have hstep := applyOp_root_id t op
    have htail := ih (applyOp t op)
    simp only [runOps, List.foldl_cons] at *
    rw [htail, hstep]
    constructor
    · rintro ((h | h) | ⟨o, ho, hno⟩)
      · exact Or.inl h
      · exact Or.inr ⟨op, List.mem_cons_self op ops, h⟩
      · exact Or.inr ⟨o, List.mem_cons_of_mem op ho, hno⟩
    · rintro (h | ⟨o, ho, hno⟩)
      · exact Or.inl (Or.inl h)
      · rcases List.mem_cons.mp ho with h | h
        · subst h; exact Or.inl (Or.inr hno)
        · exact Or.inr ⟨o, h, hno⟩

/-- C2 counterexample: add a root exchange to an empty tree, then delete
it — `delete_exchange` never resets `root_id`, so the tree ends with an
empty `exchanges` map while `root_id` still carries the deleted id,
violating "root_id is null iff exchanges is empty". -/
theorem c2_stale_root_after_delete :
    (runOps (emptyTree "t") [.add (sampleNode "a" none []) none, .del "a"]).exchanges = [] ∧
    (runOps (emptyTree "t") [.add (sampleNode "a" none []) none, .del "a"]).root_id
      = some "a" := by
  decide

/-- C2 (amended): over every tree reachable from the empty tree by
`add_exchange` / `delete_exchange` sequences, `root_id` is non-null
exactly when the sequence contains an `add_exchange` call with a null
parent — `root_id` is assigned by the first such call and never cleared.
The spec's biconditional with emptiness of `exchanges` fails in both
directions: deleting the root empties the map but keeps `root_id` set,
and an add with a dangling parent id populates the map of a rootless
tree. -/
theorem c2_root_id_iff_null_parent_add (tree_id : String) (ops : List TreeOp) :
    ((runOps (emptyTree tree_id) ops).root_id ≠ none) ↔
      (∃ op ∈ ops, isNullParentAdd op = true) := by
  rw [runOps_root_id ops (emptyTree tree_id)]
  simp [emptyTree]

theorem takeWhile_pred_of_mem {p : String → Bool} :
    ∀ {l : List String} {x : String}, x ∈ l.takeWhile p → p x = true := by
  intro l
  induction l with
  | nil => intro x h; simp [List.takeWhile] at h
  | cons a l ih =>
    intro x h
    cases hp : p a with
    | false => rw [List.takeWhile_cons_of_neg (by simp [hp])] at h; simp at h
    | true =>
      rw [List.takeWhile_cons_of_pos (by simp [hp])] at h
      rcases List.mem_cons.mp h with h | h
      · subst h; exact hp
      · exact ih h

theorem takeWhile_eq_self_of_all {p : String → Bool} :
    ∀ {l : List String}, (∀ x ∈ l, p x = true) → l.takeWhile p = l := by
  intro l
  induction l with
  | nil => intro _; rfl
  | cons a l ih =>
    intro h
    rw [List.takeWhile_cons_of_pos (by simp [h a (List.mem_cons_self a l)]),
      ih fun x hx => h x (List.mem_cons_of_mem a hx)]

theorem takeWhile_takeWhile_of_imp {p q : String → Bool} (himp : ∀ x, p x = true → q x = true) :
    ∀ (l : List String), (l.takeWhile q).takeWhile p = l.takeWhile p := by
  intro l
  induction l with
  | nil => rfl
  | cons a l ih =>
    cases hq : q a with
    | true =>
      rw [List.takeWhile_cons_of_pos (by simp [hq])]
      cases hp : p a with
      | true =>
        rw [List.takeWhile_cons_of_pos (by simp [hp]),
          List.takeWhile_cons_of_pos (by simp [hp]), ih]
      | false =>
        rw [List.takeWhile_cons_of_neg (by simp [hp]),
          List.takeWhile_cons_of_neg (by simp [hp])]
    | false =>
      have hp : p a = false := by
        cases hpa : p a with
        | false => rfl
        | true => exact absurd (himp a hpa) (by simp [hq])
      rw [List.takeWhile_cons_of_neg (by simp [hq]),
        List.takeWhile_cons_of_neg (by simp [hp])]
      rfl

theorem takeWhile_congr_of_imp {p q : String → Bool} (himp : ∀ x, p x = true → q x = true) :
    ∀ (l : List String), (∀ x ∈ l.takeWhile q, p x = true) → l.takeWhile p = l.takeWhile q := by
  intro l
  induction l with
  | nil => intro _; rfl
  | cons a l ih =>
    intro hall
    cases hq : q a with
    | false =>
      have hp : p a = false := by
        cases hpa : p a with
        | false => rfl
        | true => exact absurd (himp a hpa) (by simp [hq])
      rw [List.takeWhile_cons_of_neg (by simp [hp]),
        List.takeWhile_cons_of_neg (by simp [hq])]
    | true =>
      have hpa : p a = true := by
        apply hall
        rw [List.takeWhile_cons_of_pos (by simp [hq])]
        exact List.mem_cons_self a _
      rw [List.takeWhile_cons_of_pos (by simp [hpa]),
        List.takeWhile_cons_of_pos (by simp [hq]), ih]
      intro x hx
      apply hall
      rw [List.takeWhile_cons_of_pos (by simp [hq])]
      exact List.mem_cons_of_mem a hx

theorem hasKey_detachFromParent (exs : List (String × ExchangeNode)) (e : ExchangeNode)
    (d k : String) : hasKey (detachFromParent exs e d) k = hasKey exs k := by
  cases hp : e.parent_id with
  | none => simp [detachFromParent, hp]
  | some pid =>
    by_cases hpe : pid = ""
    · simp [detachFromParent, hp, hpe]
    · cases hl : lookupEx exs pid with
      | none => simp [detachFromParent, hp, hpe, hl]
      | some parent =>
        by_cases hin : d ∈ parent.children_ids
        · simp only [detachFromParent, hp, if_neg hpe, hl, if_pos hin, hasKey_setEx]
          by_cases hk : k = pid
          · subst hk
            simp [hasKey, hl]
          · simp [hk]
        · simp [detachFromParent, hp, hpe, hl, hin]

theorem hasKey_delKey_imp {exs : List (String × ExchangeNode)} {d k : String}
    (h : hasKey (delKey exs d) k = true) : hasKey exs k = true := by
  unfold hasKey at *
  cases hl : lookupEx (delKey exs d) k with
  | none => rw [hl] at h; cases h
  | some v =>
    have := mem_delKey (mem_of_lookupEx_eq_some hl)
    exact lookupEx_isSome_of_mem_keys (List.mem_map_of_mem Prod.fst this)

theorem deleteExchangeFuel_path : ∀ (fuel : Nat) (t : ExchangeTree) (d : String),
    (∀ x ∈ t.current_path, hasKey t.exchanges x = true) →
    (∀ k, hasKey (deleteExchangeFuel fuel t d).1.exchanges k = true →
        hasKey t.exchanges k = true) ∧
    (deleteExchangeFuel fuel t d).1.current_path
      = t.current_path.takeWhile (fun i => hasKey (deleteExchangeFuel fuel t d).1.exchanges i) := by
  intro fuel
  induction fuel with
  | zero =>
    intro t d hok
    exact ⟨fun k h => h, (takeWhile_eq_self_of_all hok).symm⟩
  | succ fuel ih =>
    intro t d hok
    cases hl : lookupEx t.exchanges d with
    | none =>
      simp only [deleteExchangeFuel, hl]
      exact ⟨fun k h => h, (takeWhile_eq_self_of_all hok).symm⟩
    | some e =>
      have hfold : ∀ (cs : List String) (s : ExchangeTree),
          (∀ x ∈ s.current_path, hasKey s.exchanges x = true) →
          (∀ k, hasKey (cs.foldl (fun acc c => (deleteExchangeFuel fuel acc c).1) s).exchanges k
              = true → hasKey s.exchanges k = true) ∧
          (cs.foldl (fun acc c => (deleteExchangeFuel fuel acc c).1) s).current_path
            = s.current_path.takeWhile
                (fun i => hasKey
                  (cs.foldl (fun acc c => (deleteExchangeFuel fuel acc c).1) s).exchanges i) := by
        intro cs
        induction cs with
        | nil =>
          intro s hsok
          exact ⟨fun k h => h, (takeWhile_eq_self_of_all hsok).symm⟩
        | cons c cs ihc =>
          intro s hsok
          obtain ⟨hsh1, hpa1⟩ := ih s c hsok
          obtain ⟨hsh2, hpa2⟩ := ihc (deleteExchangeFuel fuel s c).1 (by
            intro x hx
            rw [hpa1] at hx
            exact takeWhile_pred_of_mem hx)
          simp only [List.foldl_cons]
          refine ⟨fun k h => hsh1 k (hsh2 k h), ?_⟩
          rw [hpa2, hpa1, takeWhile_takeWhile_of_imp]
          intro x hx
          exact hsh2 x hx
      simp only [deleteExchangeFuel, hl]
      have ht1keys : ∀ k,
          hasKey (detachFromParent t.exchanges e d) k = hasKey t.exchanges k :=
        fun k => hasKey_detachFromParent t.exchanges e d k
      obtain ⟨hsh2, hpa2⟩ := hfold
        (((lookupEx (detachFromParent t.exchanges e d) d).getD e).children_ids)
        { t with exchanges := detachFromParent t.exchanges e d }
        (by intro x hx; rw [ht1keys]; exact hok x hx)
      set t2 := (((lookupEx (detachFromParent t.exchanges e d) d).getD e).children_ids).foldl
        (fun acc c => (deleteExchangeFuel fuel acc c).1)
        { t with exchanges := detachFromParent t.exchanges e d } with ht2
      have hsh3 : ∀ k, hasKey (delKey t2.exchanges d) k = true → hasKey t.exchanges k = true := by
        intro k h
        have := hsh2 k (hasKey_delKey_imp h)
        rw [ht1keys] at this
        exact this
      have ht2path : t2.current_path = t.current_path.takeWhile
          (fun i => hasKey t2.exchanges i) := hpa2
      by_cases hmem : d ∈ t2.current_path
      · rw [if_pos hmem]
        refine ⟨hsh3, ?_⟩
        show t2.current_path.takeWhile _ = t.current_path.takeWhile _
        rw [ht2path, takeWhile_takeWhile_of_imp]
        intro x hx
        exact hasKey_delKey_imp hx
      · rw [if_neg hmem]
        refine ⟨hsh3, ?_⟩
        show t2.current_path = t.current_path.takeWhile _
        rw [ht2path]
        symm
        apply takeWhile_congr_of_imp
        · intro x hx
          exact hasKey_delKey_imp hx
        · intro x hx
          have hxne : x ≠ d := by
            intro hxd
            subst hxd
            apply hmem
            rw [ht2path]
            exact hx
          have hx2 : hasKey t2.exchanges x = true := takeWhile_pred_of_mem hx
          show hasKey (delKey t2.exchanges d) x = true
          unfold hasKey
          rw [lookupEx_delKey_ne t2.exchanges d x hxne]
          exact hx2

/-- C8: for every tree whose `current_path` entries all exist (as every
tree produced by the operations satisfies) and every `delete_exchange`
call, the resulting `current_path` is the longest leading prefix of its
pre-delete value whose ids all still exist after the deletion (the
`takeWhile` characterization), hence is either unchanged or a strict
prefix, and every id remaining in it exists in `exchanges`. -/
theorem c8_delete_repairs_path (t : ExchangeTree) (d : String)
    (hok : ∀ x ∈ t.current_path, hasKey t.exchanges x = true) :
    ((delete_exchange t d).1.current_path
      = t.current_path.takeWhile (fun i => hasKey (delete_exchange t d).1.exchanges i)) ∧
    ((delete_exchange t d).1.current_path = t.current_path ∨
      ((delete_exchange t d).1.current_path <+: t.current_path ∧
        (delete_exchange t d).1.current_path ≠ t.current_path)) ∧
    (∀ x ∈ (delete_exchange t d).1.current_path,
      hasKey (delete_exchange t d).1.exchanges x = true) := by
  obtain ⟨hsh, hpath⟩ := deleteExchangeFuel_path (t.exchanges.length + 1) t d hok
  rw [show delete_exchange t d = deleteExchangeFuel (t.exchanges.length + 1) t d from rfl]
  refine ⟨hpath, ?_, ?_⟩
  · by_cases heq : (delete_exchange t d).1.current_path = t.current_path
    · exact Or.inl heq
    · refine Or.inr ⟨?_, heq⟩
      rw [hpath]
      exact List.takeWhile_prefix _
  · intro x hx
    rw [hpath] at hx
    exact takeWhile_pred_of_mem hx

/-- C8 witness on the sample chain: deleting "b" cascades to "c" and
truncates the current path `["a", "b", "c"]` to `["a"]`. -/
theorem c8_delete_repairs_path_witness :
    (∀ x ∈ sampleChain.current_path, hasKey sampleChain.exchanges x = true) ∧
    (((delete_exchange sampleChain "b").1.current_path
      = sampleChain.current_path.takeWhile
          (fun i => hasKey (delete_exchange sampleChain "b").1.exchanges i)) ∧
    ((delete_exchange sampleChain "b").1.current_path = sampleChain.current_path ∨
      ((delete_exchange sampleChain "b").1.current_path <+: sampleChain.current_path ∧
        (delete_exchange sampleChain "b").1.current_path ≠ sampleChain.current_path)) ∧
    (∀ x ∈ (delete_exchange sampleChain "b").1.current_path,
      hasKey (delete_exchange sampleChain "b").1.exchanges x = true)) :=
  ⟨by decide, c8_delete_repairs_path sampleChain "b" (by decide)⟩

theorem keys_setEx_of_not_hasKey (exs : List (String × ExchangeNode)) (k : String)
    (v : ExchangeNode) (h : hasKey exs k = false) :
    (setEx exs k v).map Prod.fst = exs.map Prod.fst ++ [k] := by
  induction exs with
  | nil => simp [setEx]
  | cons hd tl ih =>
    obtain ⟨k', w⟩ := hd
    by_cases hk : k' = k
    · subst hk
      simp [hasKey, lookupEx] at h
    · simp only [hasKey, lookupEx, if_neg hk] at h
      simp [setEx, hk, ih h]

theorem head?_append_of_ne_nil {l : List String} (acc : List String) (h : l ≠ []) :
    (l ++ acc).head? = l.head? := by
  cases l with
  | nil => exact absurd rfl h
  | cons a l => rfl

theorem exists_concat_of_getLast? :
    ∀ {l : List String} {a : String}, l.getLast? = some a → ∃ l0, l = l0 ++ [a] := by
  intro l
  induction l with
  | nil => intro a h; cases h
  | cons x xs ih =>
    intro a h
    cases xs with
    | nil =>
      simp [List.getLast?] at h
      exact ⟨[], by simp [h]⟩
    | cons y ys =>
      rw [List.getLast?_cons_cons] at h
      obtain ⟨l0, hl0⟩ := ih h
      exact ⟨x :: l0, by simp [hl0]⟩

theorem not_mem_keys_of_lookupEx_eq_none {exs : List (String × ExchangeNode)} {k : String}
    (h : lookupEx exs k = none) : k ∉ exs.map Prod.fst := by
  intro hmem
  have := lookupEx_isSome_of_mem_keys hmem
  rw [h] at this
  cases this

theorem pathToAux_rooted (exs : List (String × ExchangeNode)) (root_id : Option String)
    (rank : String → Nat)
    (hparents : ParentsOk exs rank) (hroot : RootOk exs root_id) (hbound : RankBound exs rank) :
    ∀ (fuel : Nat) (k : String) (acc : List String) (e : ExchangeNode),
      lookupEx exs k = some e → exs.length - rank k < fuel →
      ∃ l, pathToAux exs fuel k acc = l ++ acc ∧ l ≠ [] ∧ l.head? = root_id ∧
        l.getLast? = some k := by
  intro fuel
  induction fuel with
  | zero =>
    intro k acc e hk hfuel
    exact absurd hfuel (Nat.not_lt_zero _)
  | succ fuel ih =>
    intro k acc e hk hfuel
    have hkmem := mem_of_lookupEx_eq_some hk
    cases hp : e.parent_id with
    | none =>
      refine ⟨[k], ?_, by simp, ?_, by simp⟩
      · simp [pathToAux, hk, hp]
      · simp [(hroot (k, e) hkmem hp).symm]
    | some p =>
      obtain ⟨hpe, hrk⟩ := hparents (k, e) hkmem p hp
      cases hpl : lookupEx exs p with
      | none => rw [hpl] at hpe; cases hpe
      | some pe =>
        have hpmem := mem_of_lookupEx_eq_some hpl
        have hple : rank p ≤ exs.length := hbound (p, pe) hpmem
        have hrk2 : rank k < rank p := hrk
        have hfl : exs.length - rank p < fuel := by
          have hkle : rank k < exs.length := Nat.lt_of_lt_of_le hrk2 hple
          omega
        obtain ⟨l, hl, hne, hhead, hlast⟩ := ih p (k :: acc) pe hpl hfl
        refine ⟨l ++ [k], ?_, by simp, ?_, ?_⟩
        · show pathToAux exs (fuel + 1) k acc = (l ++ [k]) ++ acc
          simp only [pathToAux, hk, hp, hl, List.append_assoc, List.cons_append,
            List.nil_append]
        · rw [head?_append_of_ne_nil [k] hne]
          exact hhead
        · exact List.getLast?_concat l

theorem add_exchange_present (t : ExchangeTree) (e pe : ExchangeNode) (p : String)
    (hp : lookupEx t.exchanges p = some pe) :
    (add_exchange t e (some p)).1
      = { t with exchanges :=
            (setEx (setEx t.exchanges p { pe with children_ids := pe.children_ids ++ [e.id] })
              e.id { e with parent_id := some p }) } := by
  simp only [add_exchange, hp]

/-- C4 (amended): in a well-formed tree (parent pointers resolve, rank
strictly increases towards the root, a parentless exchange is the root),
adding a fresh exchange under a parent `p` present in the tree makes
`path_to(e.id)` end with `e.id` immediately preceded by `p`, and begin
with the tree's root id (which the add leaves unchanged); and for every
id absent from `exchanges`, `path_to` returns the empty sequence.  (As
stated over arbitrary adds the claim fails: an exchange added with a null
parent into an already-rooted tree has the one-element path `[e.id]`,
which does not begin with the root id — see the counterexample.) -/
theorem c4_path_to_after_add (t : ExchangeTree) (e pe : ExchangeNode) (p : String)
    (rank : String → Nat)
    (hparents : ParentsOk t.exchanges rank) (hroot : RootOk t.exchanges t.root_id)
    (hbound : RankBound t.exchanges rank)
    (hp : lookupEx t.exchanges p = some pe) (hfresh : lookupEx t.exchanges e.id = none) :
    (∃ pre, get_path_to_exchange (add_exchange t e (some p)).1 e.id = pre ++ [p, e.id]) ∧
    (get_path_to_exchange (add_exchange t e (some p)).1 e.id).head?
      = (add_exchange t e (some p)).1.root_id ∧
    (add_exchange t e (some p)).1.root_id = t.root_id ∧
    (∀ x, hasKey (add_exchange t e (some p)).1.exchanges x = false →
      get_path_to_exchange (add_exchange t e (some p)).1 x = []) := by
  have hne : p ≠ e.id := by
    intro h
    rw [h, hfresh] at hp
    cases hp
  set pe1 : ExchangeNode := { pe with children_ids := pe.children_ids ++ [e.id] } with hpe1
  set e1 : ExchangeNode := { e with parent_id := some p } with he1
  set exs1 := setEx t.exchanges p pe1 with hexs1
  set exs2 := setEx exs1 e.id e1 with hexs2
  have hproj1 : (add_exchange t e (some p)).1.exchanges = exs2 := by
    rw [add_exchange_present t e pe p hp]
  have hproj2 : (add_exchange t e (some p)).1.root_id = t.root_id := by
    rw [add_exchange_present t e pe p hp]
  have hgp : ∀ x, get_path_to_exchange (add_exchange t e (some p)).1 x
      = if hasKey exs2 x then pathToAux exs2 (exs2.length + 1) x [] else [] := by
    intro x
    unfold get_path_to_exchange
    rw [hproj1]
  have hlook_e : lookupEx exs2 e.id = some e1 := lookupEx_setEx_self _ _ _
  have hlook_p : lookupEx exs2 p = some pe1 := by
    rw [hexs2, lookupEx_setEx_ne _ _ _ _ hne, hexs1]
    exact lookupEx_setEx_self _ _ _
  have hlook_other : ∀ x, x ≠ e.id → x ≠ p → lookupEx exs2 x = lookupEx t.exchanges x := by
    intro x hx1 hx2
    rw [hexs2, lookupEx_setEx_ne _ _ _ _ hx1, hexs1, lookupEx_setEx_ne _ _ _ _ hx2]
  have hkeyne : ∀ kv ∈ t.exchanges, kv.1 ≠ e.id := by
    intro kv hkv h
    exact not_mem_keys_of_lookupEx_eq_none hfresh (h ▸ List.mem_map_of_mem Prod.fst hkv)
  have hlen : exs2.length = t.exchanges.length + 1 := by
    have h1 : exs1.map Prod.fst = t.exchanges.map Prod.fst :=
      keys_setEx_of_hasKey _ _ _ (by simp [hasKey, hp])
    have h0 : hasKey exs1 e.id = false := by
      unfold hasKey
      rw [hexs1, lookupEx_setEx_ne _ _ _ _ (Ne.symm hne), hfresh]
      rfl
    have h2 : exs2.map Prod.fst = exs1.map Prod.fst ++ [e.id] :=
      keys_setEx_of_not_hasKey _ _ _ h0
    have h3 := congrArg List.length h2
    simp only [List.length_map, List.length_append, List.length_cons, List.length_nil] at h3
    have h4 := congrArg List.length h1
    simp only [List.length_map] at h4
    omega
  set rank2 : String → Nat := fun x => if x = e.id then 0 else rank x + 1 with hrank2
  have hmem2 : ∀ kv, kv ∈ exs2 → kv ∈ t.exchanges ∨ kv = (p, pe1) ∨ kv = (e.id, e1) := by
    intro kv hkv
    rcases mem_setEx hkv with h | h
    · rcases mem_setEx h with h | h
      · exact Or.inl h
      · exact Or.inr (Or.inl h)
    · exact Or.inr (Or.inr h)
  have hparents2 : ParentsOk exs2 rank2 := by
    intro kv hkv pp hpp
    have hcase : (kv.1 ≠ e.id ∧ ∃ w, (kv.1, w) ∈ t.exchanges ∧ w.parent_id = kv.2.parent_id)
        ∨ (kv.1 = e.id ∧ kv.2.parent_id = some p) := by
      rcases hmem2 kv hkv with h | h | h
      · exact Or.inl ⟨hkeyne kv h, kv.2, h, rfl⟩
      · subst h
        exact Or.inl ⟨hne, pe, mem_of_lookupEx_eq_some hp, rfl⟩
      · subst h
        exact Or.inr ⟨rfl, rfl⟩
    rcases hcase with ⟨hke, w, hw, hwp⟩ | ⟨hke, hkp⟩
    · rw [← hwp] at hpp
      obtain ⟨hsome, hlt⟩ := hparents (kv.1, w) hw pp hpp
      have hlt2 : rank kv.1 < rank pp := hlt
      have hppne : pp ≠ e.id := by
        intro h
        rw [h, hfresh] at hsome
        cases hsome
      constructor
      · by_cases hppp : pp = p
        · rw [hppp, hlook_p]; rfl
        · rw [hlook_other pp hppne hppp]; exact hsome
      · show rank2 kv.1 < rank2 pp
        rw [hrank2]
        simp only [if_neg hke, if_neg hppne]
        omega
    · have hppp : pp = p := by
        rw [hkp] at hpp
        exact (Option.some_inj.mp hpp).symm
      constructor
      · rw [hppp, hlook_p]; rfl
      · show rank2 kv.1 < rank2 pp
        rw [hrank2, hke, hppp]
        simp [hne]
  have hroot2 : RootOk exs2 t.root_id := by
    intro kv hkv hnil
    rcases hmem2 kv hkv with h | h | h
    · exact hroot kv h hnil
    · subst h
      exact hroot (p, pe) (mem_of_lookupEx_eq_some hp) hnil
    · subst h
      cases hnil
  have hbound2 : RankBound exs2 rank2 := by
    intro kv hkv
    show rank2 kv.1 ≤ exs2.length
    rw [hrank2, hlen]
    by_cases hke : kv.1 = e.id
    · simp [hke]
    · simp only [if_neg hke]
      have hb : rank kv.1 ≤ t.exchanges.length := by
        rcases hmem2 kv hkv with h | h | h
        · exact hbound kv h
        · have hb2 : rank p ≤ t.exchanges.length :=
            hbound (p, pe) (mem_of_lookupEx_eq_some hp)
          rw [h]
          exact hb2
        · rw [h] at hke
          exact absurd rfl hke
      omega
  have hfuel : exs2.length - rank2 p < exs2.length := by
    have hr2p : rank2 p = rank p + 1 := by rw [hrank2]; simp [hne]
    rw [hr2p, hlen]
    omega
  obtain ⟨l, hl, hlne, hlhead, hllast⟩ :=
    pathToAux_rooted exs2 t.root_id rank2 hparents2 hroot2 hbound2
      exs2.length p [e.id] pe1 hlook_p hfuel
  have hhk : hasKey exs2 e.id = true := by unfold hasKey; rw [hlook_e]; rfl
  have hpath : get_path_to_exchange (add_exchange t e (some p)).1 e.id = l ++ [e.id] := by
    rw [hgp e.id, if_pos hhk]
    rw [show pathToAux exs2 (exs2.length + 1) e.id []
        = pathToAux exs2 exs2.length p [e.id] from by
      simp only [pathToAux, hlook_e, he1]]
    exact hl
  refine ⟨?_, ?_, hproj2, ?_⟩
  · obtain ⟨l0, rfl⟩ := exists_concat_of_getLast? hllast
    refine ⟨l0, ?_⟩
    rw [hpath]
    simp
  · rw [hpath, hproj2, head?_append_of_ne_nil [e.id] hlne]
    exact hlhead
  · intro x hx
    rw [hproj1] at hx
    rw [hgp x, if_neg (by simp [hx])]

/-- C4 witness on the sample chain: adding "d" under the present parent
"b" yields a path ending `[..., "b", "d"]` that begins with the root. -/
theorem c4_path_to_after_add_witness :
    (ParentsOk sampleChain.exchanges sampleRank ∧
     RootOk sampleChain.exchanges sampleChain.root_id ∧
     RankBound sampleChain.exchanges sampleRank ∧
     lookupEx sampleChain.exchanges "b" = some (sampleNode "b" (some "a") ["c"]) ∧
     lookupEx sampleChain.exchanges (sampleNode "d" none []).id = none) ∧
    ((∃ pre, get_path_to_exchange
        (add_exchange sampleChain (sampleNode "d" none []) (some "b")).1
        (sampleNode "d" none []).id = pre ++ ["b", (sampleNode "d" none []).id]) ∧
    (get_path_to_exchange (add_exchange sampleChain (sampleNode "d" none []) (some "b")).1
        (sampleNode "d" none []).id).head?
      = (add_exchange sampleChain (sampleNode "d" none []) (some "b")).1.root_id ∧
    (add_exchange sampleChain (sampleNode "d" none []) (some "b")).1.root_id
      = sampleChain.root_id ∧
    (∀ x, hasKey (add_exchange sampleChain (sampleNode "d" none []) (some "b")).1.exchanges x
        = false →
      get_path_to_exchange (add_exchange sampleChain (sampleNode "d" none []) (some "b")).1 x
        = [])) :=
  ⟨⟨by decide, by decide, by decide, by decide, by decide⟩,
   c4_path_to_after_add sampleChain (sampleNode "d" none [])
     (sampleNode "b" (some "a") ["c"]) "b" sampleRank
     (by decide) (by decide) (by decide) (by decide) (by decide)⟩

/-- C4 counterexample: adding a second exchange with a null parent into a
tree that already has a root stores it as a parentless non-root node, and
`path_to` of the new exchange is just `[e.id]`, which does not begin with
the tree's root id — refuting "path_to(e.id) ... begins with the tree's
root id" as universally stated. -/
theorem c4_second_parentless_add_path :
    (add_exchange ((add_exchange (emptyTree "t") (sampleNode "a" none []) none).1)
        (sampleNode "b" none []) none).1.root_id = some "a" ∧
    get_path_to_exchange
        (add_exchange ((add_exchange (emptyTree "t") (sampleNode "a" none []) none).1)
          (sampleNode "b" none []) none).1 "b" = ["b"] ∧
    (["b"] : List String).head? ≠ some "a" := by
  decide

theorem lookupEx_of_mem_nodup {exs : List (String × ExchangeNode)}
    {kv : String × ExchangeNode} (hnd : NodupKeys exs) (h : kv ∈ exs) :
    lookupEx exs kv.1 = some kv.2 := by
  induction exs with
  | nil => simp at h
  | cons hd tl ih =>
    obtain ⟨k', w⟩ := hd
    unfold NodupKeys at hnd
    simp only [List.map_cons, List.nodup_cons] at hnd
    rcases List.mem_cons.mp h with h | h
    · subst h
      simp [lookupEx]
    · have hne : k' ≠ kv.1 := by
        intro heq
        exact hnd.1 (heq ▸ List.mem_map_of_mem Prod.fst h)
      simp only [lookupEx, if_neg hne]
      exact ih hnd.2 h

theorem childLinked_parent {exs : List (String × ExchangeNode)} {y c : String}
    {ce : ExchangeNode} (h : lookupEx exs c = some ce) (hcl : childLinked exs y c) :
    ce.parent_id = some y := by
  unfold childLinked at hcl
  rw [h] at hcl
  simpa using hcl

theorem parent_determined {exs : List (String × ExchangeNode)} {x y1 y2 : String}
    (h1 : childLinked exs y1 x) (h2 : childLinked exs y2 x) : y1 = y2 := by
  unfold childLinked at h1 h2
  rw [h1] at h2
  exact Option.some_inj.mp h2

theorem childReach_extend {exs : List (String × ExchangeNode)} {q k d : String}
    {qe : ExchangeNode} (h : ChildReach exs d q) (hq : lookupEx exs q = some qe)
    (hk : k ∈ qe.children_ids) : ChildReach exs d k := by
  induction h with
  | refl a => exact .step qe hq hk (.refl k)
  | step e hl hc _ ih => exact .step e hl hc (ih hq)

theorem childReach_rank_le {exs : List (String × ExchangeNode)} {rank : String → Nat}
    (hr : LookRankOk exs rank) : ∀ {c x : String}, ChildReach exs c x → rank x ≤ rank c := by
  intro c x h
  induction h with
  | refl a => exact Nat.le_refl _
  | step e hl hc _ ih => exact Nat.le_trans ih (Nat.le_of_lt (hr _ _ hl _ hc))

theorem childReach_decomp {exs : List (String × ExchangeNode)} {c x : String}
    (h : ChildReach exs c x) :
    x = c ∨ ∃ y ye, ChildReach exs c y ∧ lookupEx exs y = some ye ∧ x ∈ ye.children_ids := by
  induction h with
  | refl a => exact Or.inl rfl
  | step e hl hc hcx ih =>
    rcases ih with rfl | ⟨y, ye, hy, hye, hxye⟩
    · exact Or.inr ⟨_, e, .refl _, hl, hc⟩
    · exact Or.inr ⟨y, ye, .step e hl hc hy, hye, hxye⟩

theorem childReach_congr {exs exs2 : List (String × ExchangeNode)} :
    ∀ {c x : String}, ChildReach exs c x →
      (∀ y, ChildReach exs c y → lookupEx exs2 y = lookupEx exs y) →
      ChildReach exs2 c x := by
  intro c x h
  induction h with
  | refl a => intro _; exact .refl a
  | step e hl hc _ ih =>
    intro hagree
    refine .step e ?_ hc (ih ?_)
    · rw [hagree _ (.refl _)]; exact hl
    · intro y hy
      exact hagree y (.step e hl hc hy)

theorem childReach_congr_rev {exs exs2 : List (String × ExchangeNode)} {c : String}
    (hagree : ∀ y, ChildReach exs c y → lookupEx exs2 y = lookupEx exs y) :
    ∀ {z x : String}, ChildReach exs2 z x → ChildReach exs c z → ChildReach exs c x := by
  intro z x h
  induction h with
  | refl a => intro hz; exact hz
  | step e hl hc _ ih =>
    intro hz
    have hlz := hl
    rw [hagree _ hz] at hlz
    exact ih (childReach_extend hz hlz hc)

theorem childReach_disjoint {exs : List (String × ExchangeNode)} {rank : String → Nat}
    (hlc : LookChildrenOk exs) (hlr : LookRankOk exs rank)
    {d c1 c2 : String} {ce1 ce2 : ExchangeNode}
    (h1 : lookupEx exs c1 = some ce1) (hp1 : ce1.parent_id = some d)
    (h2 : lookupEx exs c2 = some ce2) (hp2 : ce2.parent_id = some d)
    (hne : c1 ≠ c2) (hr1 : rank c1 < rank d) (hr2 : rank c2 < rank d) :
    ∀ x, ChildReach exs c1 x → ChildReach exs c2 x → False := by
  suffices haux : ∀ n x, rank d - rank x ≤ n →
      ChildReach exs c1 x → ChildReach exs c2 x → False by
    intro x hx1 hx2
    exact haux (rank d) x (Nat.sub_le _ _) hx1 hx2
  intro n
  induction n with
  | zero =>
    intro x hle hx1 hx2
    have hxr : rank x ≤ rank c1 := childReach_rank_le hlr hx1
    omega
  | succ n ihn =>
    intro x hle hx1 hx2
    have hxr1 : rank x ≤ rank c1 := childReach_rank_le hlr hx1
    rcases childReach_decomp hx1 with rfl | ⟨y1, ye1, hy1, hye1, hxy1⟩
    · rcases childReach_decomp hx2 with heq | ⟨y, ye, hy, hye, hxy⟩
      · exact hne heq
      · have hcl := (hlc y ye hye).2.2 _ hxy
        have hyd : y = d := by
          have := childLinked_parent h1 hcl
          rw [hp1] at this
          exact (Option.some_inj.mp this).symm
        subst hyd
        have := childReach_rank_le hlr hy
        omega
    · rcases childReach_decomp hx2 with rfl | ⟨y2, ye2, hy2, hye2, hxy2⟩
      · have hcl := (hlc y1 ye1 hye1).2.2 _ hxy1
        have hyd : y1 = d := by
          have := childLinked_parent h2 hcl
          rw [hp2] at this
          exact (Option.some_inj.mp this).symm
        subst hyd
        have := childReach_rank_le hlr hy1
        omega
      · have hcl1 := (hlc y1 ye1 hye1).2.2 _ hxy1
        have hcl2 := (hlc y2 ye2 hye2).2.2 _ hxy2
        have hyy : y1 = y2 := parent_determined hcl1 hcl2
        subst hyy
        have hxlt : rank x < rank y1 := hlr y1 ye1 hye1 _ hxy1
        have hy1c : rank y1 ≤ rank c1 := childReach_rank_le hlr hy1
        exact ihn y1 (by omega) hy1 hy2

theorem childErased_parent (d : String) (e : ExchangeNode) :
    (childErased d e).parent_id = e.parent_id := by
  unfold childErased
  split <;> rfl

theorem childErased_mem {d x : String} {e : ExchangeNode}
    (h : x ∈ (childErased d e).children_ids) : x ∈ e.children_ids := by
  unfold childErased at h
  split at h
  · exact List.mem_of_mem_erase h
  · exact h

theorem childErased_nodup {d : String} {e : ExchangeNode} (h : e.children_ids.Nodup) :
    (childErased d e).children_ids.Nodup := by
  unfold childErased
  split
  · exact h.erase d
  · exact h

theorem childErased_not_mem_self {d : String} {e : ExchangeNode}
    (h : e.children_ids.Nodup) : d ∉ (childErased d e).children_ids := by
  unfold childErased
  split
  · intro hmem
    exact ((List.Nodup.mem_erase_iff h).mp hmem).1 rfl
  · assumption

theorem childLinked_elim {exs : List (String × ExchangeNode)} {k c : String}
    (h : childLinked exs k c) :
    ∃ ce, lookupEx exs c = some ce ∧ ce.parent_id = some k := by
  unfold childLinked at h
  cases hl : lookupEx exs c with
  | none => rw [hl] at h; cases h
  | some ce =>
    rw [hl] at h
    exact ⟨ce, rfl, by simpa using h⟩

theorem eraseAll_mem {cs : List String} : ∀ {l : List String} {x : String},
    x ∈ eraseAll l cs → x ∈ l := by
  induction cs with
  | nil => intro l x h; exact h
  | cons c cs ih =>
    intro l x h
    have := ih (l := l.erase c) h
    exact List.mem_of_mem_erase this

theorem eraseAll_id {cs : List String} : ∀ {l : List String},
    (∀ c ∈ cs, c ∉ l) → eraseAll l cs = l := by
  induction cs with
  | nil => intro l _; rfl
  | cons c cs ih =>
    intro l h
    show eraseAll (l.erase c) cs = l
    rw [List.erase_of_not_mem (h c (List.mem_cons_self c cs))]
    exact ih fun c' hc' => h c' (List.mem_cons_of_mem c hc')

theorem childrenErasedAll_nil (e : ExchangeNode) : childrenErasedAll [] e = e := rfl

theorem childrenErasedAll_id {cs : List String} {e : ExchangeNode}
    (h : ∀ c ∈ cs, c ∉ e.children_ids) : childrenErasedAll cs e = e := by
  unfold childrenErasedAll
  rw [eraseAll_id h]

theorem childrenErasedAll_cons (c : String) (cs : List String) (e : ExchangeNode) :
    childrenErasedAll cs (childErased c e) = childrenErasedAll (c :: cs) e := by
  unfold childrenErasedAll childErased eraseAll
  by_cases h : c ∈ e.children_ids
  · rw [if_pos h]
    rfl
  · rw [if_neg h]
    show _ = { e with children_ids := List.foldl _ (e.children_ids.erase c) cs }
    rw [List.erase_of_not_mem h]

theorem detach_formula {exs : List (String × ExchangeNode)} {ed : ExchangeNode} {d : String}
    (hlc : LookChildrenOk exs) (hl : lookupEx exs d = some ed) :
    (∀ k, lookupEx (detachFromParent exs ed d) k = (lookupEx exs k).map (childErased d)) ∧
    (detachFromParent exs ed d).map Prod.fst = exs.map Prod.fst := by
  have hlist : ∀ k ek, lookupEx exs k = some ek → d ∈ ek.children_ids →
      ed.parent_id = some k ∧ k ≠ "" :=
    fun k ek hk hd => ⟨childLinked_parent hl ((hlc k ek hk).2.2 _ hd), (hlc k ek hk).1⟩
  have hid : (∀ k ek, lookupEx exs k = some ek → d ∉ ek.children_ids) →
      ∀ k, lookupEx exs k = (lookupEx exs k).map (childErased d) := by
    intro hno k
    cases h : lookupEx exs k with
    | none => rfl
    | some ek =>
      simp only [Option.map_some']
      unfold childErased
      rw [if_neg (hno k ek h)]
  cases hp : ed.parent_id with
  | none =>
    have hdet : detachFromParent exs ed d = exs := by simp [detachFromParent, hp]
    rw [hdet]
    refine ⟨hid fun k ek hk hd => ?_, rfl⟩
    have hthis := (hlist k ek hk hd).1
    rw [hp] at hthis
    cases hthis
  | some p =>
    by_cases hpe : p = ""
    · have hdet : detachFromParent exs ed d = exs := by simp [detachFromParent, hp, hpe]
      rw [hdet]
      refine ⟨hid fun k ek hk hd => ?_, rfl⟩
      obtain ⟨hpar, hke⟩ := hlist k ek hk hd
      rw [hp] at hpar
      exact hke ((Option.some_inj.mp hpar).symm.trans hpe)
    · cases hlp : lookupEx exs p with
      | none =>
        have hdet : detachFromParent exs ed d = exs := by
          simp [detachFromParent, hp, hpe, hlp]
        rw [hdet]
        refine ⟨hid fun k ek hk hd => ?_, rfl⟩
        obtain ⟨hpar, -⟩ := hlist k ek hk hd
        rw [hp] at hpar
        have hkp : k = p := Option.some_inj.mp hpar.symm
        rw [hkp, hlp] at hk
        cases hk
      | some parent =>
        by_cases hin : d ∈ parent.children_ids
        · have hdet : detachFromParent exs ed d
              = setEx exs p { parent with children_ids := parent.children_ids.erase d } := by
            simp [detachFromParent, hp, hpe, hlp, hin]
          rw [hdet]
          constructor
          · intro k
            by_cases hkp : k = p
            · subst hkp
              rw [lookupEx_setEx_self, hlp]
              simp only [Option.map_some']
              unfold childErased
              rw [if_pos hin]
            · rw [lookupEx_setEx_ne _ _ _ _ hkp]
              cases hk : lookupEx exs k with
              | none => rfl
              | some ek =>
                simp only [Option.map_some']
                unfold childErased
                rw [if_neg]
                intro hd
                obtain ⟨hpar, -⟩ := hlist k ek hk hd
                rw [hp] at hpar
                exact hkp (Option.some_inj.mp hpar.symm)
          · exact keys_setEx_of_hasKey _ _ _ (by simp [hasKey, hlp])
        · have hdet : detachFromParent exs ed d = exs := by
            simp [detachFromParent, hp, hpe, hlp, hin]
          rw [hdet]
          refine ⟨hid fun k ek hk hd => ?_, rfl⟩
          obtain ⟨hpar, -⟩ := hlist k ek hk hd
          rw [hp] at hpar
          have hkp : k = p := Option.some_inj.mp hpar.symm
          rw [hkp, hlp] at hk
          have heq : ek = parent := (Option.some_inj.mp hk).symm
          rw [heq] at hd
          exact hin hd

theorem wf_of_formula {exs exs2 : List (String × ExchangeNode)} {rank : String → Nat}
    {d : String}
    (hlc : LookChildrenOk exs) (hlr : LookRankOk exs rank)
    (hform : ∀ k, lookupEx exs2 k = (lookupEx exs k).map (childErased d)) :
    LookChildrenOk exs2 ∧ LookRankOk exs2 rank := by
  constructor
  · intro k e2 h2
    rw [hform k] at h2
    cases h : lookupEx exs k with
    | none => rw [h] at h2; cases h2
    | some e =>
      rw [h] at h2
      simp only [Option.map_some'] at h2
      obtain ⟨hne, hnd, hch⟩ := hlc k e h
      have he2 : e2 = childErased d e := (Option.some_inj.mp h2).symm
      subst he2
      refine ⟨hne, childErased_nodup hnd, ?_⟩
      intro c hc
      have hc' : c ∈ e.children_ids := childErased_mem hc
      obtain ⟨ce, hce, hcep⟩ := childLinked_elim (hch c hc')
      unfold childLinked
      rw [hform c, hce]
      simp [childErased_parent, hcep]
  · intro k e2 h2
    rw [hform k] at h2
    cases h : lookupEx exs k with
    | none => rw [h] at h2; cases h2
    | some e =>
      rw [h] at h2
      simp only [Option.map_some'] at h2
      have he2 : e2 = childErased d e := (Option.some_inj.mp h2).symm
      subst he2
      intro c hc
      exact hlr k e h c (childErased_mem hc)

theorem foldDelete_spec (fuel : Nat) (rank : String → Nat) (d : String)
    (IH : ∀ (t : ExchangeTree) (c : String) (ce : ExchangeNode),
      NodupKeys t.exchanges → LookChildrenOk t.exchanges → LookRankOk t.exchanges rank →
      lookupEx t.exchanges c = some ce → rank c < fuel →
      (deleteExchangeFuel fuel t c).2 = true ∧
      NodupKeys (deleteExchangeFuel fuel t c).1.exchanges ∧
      LookChildrenOk (deleteExchangeFuel fuel t c).1.exchanges ∧
      LookRankOk (deleteExchangeFuel fuel t c).1.exchanges rank ∧
      (∀ x, ChildReach t.exchanges c x →
          lookupEx (deleteExchangeFuel fuel t c).1.exchanges x = none) ∧
      (∀ k, ¬ ChildReach t.exchanges c k →
          lookupEx (deleteExchangeFuel fuel t c).1.exchanges k
            = (lookupEx t.exchanges k).map (childErased c))) :
    ∀ (cs : List String) (s : ExchangeTree),
      NodupKeys s.exchanges → LookChildrenOk s.exchanges → LookRankOk s.exchanges rank →
      cs.Nodup →
      (∀ c ∈ cs, ∃ ce, lookupEx s.exchanges c = some ce ∧ ce.parent_id = some d ∧
        rank c < fuel ∧ rank c < rank d) →
      NodupKeys (cs.foldl (fun acc c => (deleteExchangeFuel fuel acc c).1) s).exchanges ∧
      LookChildrenOk (cs.foldl (fun acc c => (deleteExchangeFuel fuel acc c).1) s).exchanges ∧
      LookRankOk (cs.foldl (fun acc c => (deleteExchangeFuel fuel acc c).1) s).exchanges rank ∧
      (∀ x, (∃ c ∈ cs, ChildReach s.exchanges c x) →
        lookupEx (cs.foldl (fun acc c => (deleteExchangeFuel fuel acc c).1) s).exchanges x
          = none) ∧
      (∀ k, ¬(∃ c ∈ cs, ChildReach s.exchanges c k) →
        lookupEx (cs.foldl (fun acc c => (deleteExchangeFuel fuel acc c).1) s).exchanges k
          = (lookupEx s.exchanges k).map (childrenErasedAll cs)) := by
  intro cs
  induction cs with
  | nil =>
    intro s hnd hlc hlr _ _
    refine ⟨hnd, hlc, hlr, ?_, ?_⟩
    · rintro x ⟨c, hc, -⟩
      simp at hc
    · intro k _
      cases h : lookupEx s.exchanges k with
      | none => simp [h]
      | some e => simp [h, childrenErasedAll_nil]
  | cons c cs ihc =>
    intro s hnd hlc hlr hcnd hall
    obtain ⟨ce, hce, hcep, hcf, hcr⟩ := hall c (List.mem_cons_self c cs)
    obtain ⟨-, hnd1, hlc1, hlr1, hrem1, hsur1⟩ := IH s c ce hnd hlc hlr hce hcf
    have hcnotin : c ∉ cs := (List.nodup_cons.mp hcnd).1
    have hcstl : cs.Nodup := (List.nodup_cons.mp hcnd).2
    have hdisj : ∀ c' ∈ cs, ∀ y, ChildReach s.exchanges c' y →
        ¬ ChildReach s.exchanges c y := by
      intro c' hc' y hy hcy
      obtain ⟨ce', hce', hcep', -, hcr'⟩ := hall c' (List.mem_cons_of_mem c hc')
      have hne : c ≠ c' := fun h => hcnotin (h ▸ hc')
      exact childReach_disjoint hlc hlr hce hcep hce' hcep' hne hcr hcr' y hcy hy
    have hagree : ∀ c' ∈ cs, ∀ y, ChildReach s.exchanges c' y →
        lookupEx (deleteExchangeFuel fuel s c).1.exchanges y = lookupEx s.exchanges y := by
      intro c' hc' y hy
      rw [hsur1 y (hdisj c' hc' y hy)]
      cases hyl : lookupEx s.exchanges y with
      | none => rfl
      | some ye =>
        simp only [Option.map_some']
        congr 1
        unfold childErased
        rw [if_neg]
        intro hcmem
        have hcl := (hlc y ye hyl).2.2 _ hcmem
        have hyd : y = d := by
          have hpar := childLinked_parent hce hcl
          rw [hcep] at hpar
          exact (Option.some_inj.mp hpar).symm
        subst hyd
        obtain ⟨ce', hce', hcep', -, hcr'⟩ := hall c' (List.mem_cons_of_mem c hc')
        have hrd := childReach_rank_le hlr hy
        omega
    have hall1 : ∀ c' ∈ cs, ∃ ce',
        lookupEx (deleteExchangeFuel fuel s c).1.exchanges c' = some ce' ∧
        ce'.parent_id = some d ∧ rank c' < fuel ∧ rank c' < rank d := by
      intro c' hc'
      obtain ⟨ce', hce', hcep', hcf', hcr'⟩ := hall c' (List.mem_cons_of_mem c hc')
      refine ⟨ce', ?_, hcep', hcf', hcr'⟩
      rw [hagree c' hc' c' (.refl c'), hce']
    obtain ⟨hnd2, hlc2, hlr2, hrem2, hsur2⟩ :=
      ihc (deleteExchangeFuel fuel s c).1 hnd1 hlc1 hlr1 hcstl hall1
    simp only [List.foldl_cons]
    refine ⟨hnd2, hlc2, hlr2, ?_, ?_⟩
    · rintro x ⟨c0, hc0mem, hc0r⟩
      rcases List.mem_cons.mp hc0mem with rfl | hc0mem
      · have hnone1 : lookupEx (deleteExchangeFuel fuel s c0).1.exchanges x = none :=
          hrem1 x hc0r
        by_cases h2 : ∃ c' ∈ cs, ChildReach (deleteExchangeFuel fuel s c0).1.exchanges c' x
        · exact hrem2 x h2
        · rw [hsur2 x h2, hnone1]
          rfl
      · have hx1 : ChildReach (deleteExchangeFuel fuel s c).1.exchanges c0 x :=
          childReach_congr hc0r (hagree c0 hc0mem)
        exact hrem2 x ⟨c0, hc0mem, hx1⟩
    · intro k hnk
      have hnkc : ¬ ChildReach s.exchanges c k := fun h =>
        hnk ⟨c, List.mem_cons_self c cs, h⟩
      have hnk2 : ¬ ∃ c' ∈ cs, ChildReach (deleteExchangeFuel fuel s c).1.exchanges c' k := by
        rintro ⟨c', hc', hr⟩
        exact hnk ⟨c', List.mem_cons_of_mem c hc',
          childReach_congr_rev (hagree c' hc') hr (.refl c')⟩
      rw [hsur2 k hnk2, hsur1 k hnkc]
      cases hkl : lookupEx s.exchanges k with
      | none => rfl
      | some e =>
        simp only [Option.map_some']
        rw [childrenErasedAll_cons]

theorem deleteFuel_master : ∀ (fuel : Nat) (t : ExchangeTree) (d : String)
    (rank : String → Nat) (ed : ExchangeNode),
    NodupKeys t.exchanges → LookChildrenOk t.exchanges → LookRankOk t.exchanges rank →
    lookupEx t.exchanges d = some ed → rank d < fuel →
    (deleteExchangeFuel fuel t d).2 = true ∧
    NodupKeys (deleteExchangeFuel fuel t d).1.exchanges ∧
    LookChildrenOk (deleteExchangeFuel fuel t d).1.exchanges ∧
    LookRankOk (deleteExchangeFuel fuel t d).1.exchanges rank ∧
    (∀ x, ChildReach t.exchanges d x →
        lookupEx (deleteExchangeFuel fuel t d).1.exchanges x = none) ∧
    (∀ k, ¬ ChildReach t.exchanges d k →
        lookupEx (deleteExchangeFuel fuel t d).1.exchanges k
          = (lookupEx t.exchanges k).map (childErased d)) := by
  intro fuel
  induction fuel with
  | zero =>
    intro t d rank ed _ _ _ _ hf
    exact absurd hf (Nat.not_lt_zero _)
  | succ fuel ih =>
    intro t d rank ed hnd hlc hlr hl hfuel
    have hform1 := (detach_formula hlc hl).1
    have hkeys1 := (detach_formula hlc hl).2
    have hnd1 : NodupKeys (detachFromParent t.exchanges ed d) := by
      unfold NodupKeys at *
      rw [hkeys1]
      exact hnd
    obtain ⟨hlc1, hlr1⟩ := wf_of_formula hlc hlr hform1
    have hdnotself : d ∉ ed.children_ids := fun hdc =>
      absurd (hlr d ed hl d hdc) (lt_irrefl _)
    have hl1 : lookupEx (detachFromParent t.exchanges ed d) d = some ed := by
      rw [hform1 d, hl]
      simp only [Option.map_some']
      unfold childErased
      rw [if_neg hdnotself]
    have hcnd : ed.children_ids.Nodup := (hlc d ed hl).2.1
    have hall : ∀ c ∈ ed.children_ids, ∃ ce,
        lookupEx (detachFromParent t.exchanges ed d) c = some ce ∧
        ce.parent_id = some d ∧ rank c < fuel ∧ rank c < rank d := by
      intro c hc
      obtain ⟨ce0, hce0, hcep0⟩ := childLinked_elim ((hlc d ed hl).2.2 c hc)
      have hrc : rank c < rank d := hlr d ed hl c hc
      refine ⟨childErased d ce0, ?_, ?_, by omega, hrc⟩
      · rw [hform1 c, hce0]
        rfl
      · rw [childErased_parent]
        exact hcep0
    obtain ⟨hndF, hlcF, hlrF, hremF, hsurF⟩ :=
      foldDelete_spec fuel rank d (fun t c ce => ih t c rank ce) ed.children_ids
        { t with exchanges := detachFromParent t.exchanges ed d }
        hnd1 hlc1 hlr1 hcnd hall
    set rex : List (String × ExchangeNode) :=
      (ed.children_ids.foldl (fun acc c => (deleteExchangeFuel fuel acc c).1)
        { t with exchanges := detachFromParent t.exchanges ed d }).exchanges with hrex
    have hagreeC : ∀ c ∈ ed.children_ids, ∀ y, ChildReach t.exchanges c y →
        lookupEx (detachFromParent t.exchanges ed d) y = lookupEx t.exchanges y := by
      intro c hcmem y hy
      rw [hform1 y]
      cases hyl : lookupEx t.exchanges y with
      | none => rfl
      | some ye =>
        simp only [Option.map_some']
        congr 1
        unfold childErased
        rw [if_neg]
        intro hdin
        have h1 : rank d < rank y := hlr y ye hyl d hdin
        have h2 : rank y ≤ rank c := childReach_rank_le hlr hy
        have h3 : rank c < rank d := hlr d ed hl c hcmem
        omega
    have hres2 : (deleteExchangeFuel (fuel + 1) t d).2 = true := by
      simp only [deleteExchangeFuel, hl]
    have hres1 : (deleteExchangeFuel (fuel + 1) t d).1.exchanges = delKey rex d := by
      simp only [deleteExchangeFuel, hl, hl1, Option.getD_some]
      split <;> rfl
    refine ⟨hres2, ?_, ?_, ?_, ?_, ?_⟩
    · rw [hres1]
      exact List.Sublist.nodup (keys_delKey_sublist _ _) hndF
    · rw [hres1]
      intro k e hke
      have hkd : k ≠ d := by
        intro h
        subst h
        rw [lookupEx_delKey_self _ _ hndF] at hke
        cases hke
      have hk2 : lookupEx rex k = some e := by
        rw [← lookupEx_delKey_ne rex d k hkd]
        exact hke
      obtain ⟨hne0, hnd0, hch0⟩ := hlcF k e hk2
      refine ⟨hne0, hnd0, ?_⟩
      intro c hc
      have hcd : c ≠ d := by
        intro h
        rw [h] at hc
        by_cases hkr : ∃ c0 ∈ ed.children_ids,
            ChildReach (detachFromParent t.exchanges ed d) c0 k
        · rw [hremF k hkr] at hk2
          cases hk2
        · have hfk := hsurF k hkr
          rw [hfk, hform1 k] at hk2
          cases hk0 : lookupEx t.exchanges k with
          | none =>
            rw [hk0] at hk2
            cases hk2
          | some e0 =>
            rw [hk0] at hk2
            simp only [Option.map_map, Option.map_some'] at hk2
            have he : e = childrenErasedAll ed.children_ids (childErased d e0) :=
              (Option.some_inj.mp hk2).symm
            have hd_in : d ∈ (childErased d e0).children_ids := by
              have hmem : d ∈ e.children_ids := hc
              rw [he] at hmem
              exact eraseAll_mem hmem
            exact childErased_not_mem_self ((hlc k e0 hk0).2.1) hd_in
      have hcl2 : childLinked rex k c := hch0 c hc
      unfold childLinked at *
      rw [lookupEx_delKey_ne _ _ _ hcd]
      exact hcl2
    · rw [hres1]
      intro k e hke
      have hkd : k ≠ d := by
        intro h
        subst h
        rw [lookupEx_delKey_self _ _ hndF] at hke
        cases hke
      have hk2 : lookupEx rex k = some e := by
        rw [← lookupEx_delKey_ne rex d k hkd]
        exact hke
      exact hlrF k e hk2
    · intro x hx
      rw [hres1]
      by_cases hxd : x = d
      · subst hxd
        exact lookupEx_delKey_self _ _ hndF
      · have hx' : ∃ c ∈ ed.children_ids, ChildReach t.exchanges c x := by
          cases hx with
          | refl => exact absurd rfl hxd
          | step e' hl' hc' hr' =>
            rw [hl] at hl'
            have he' : ed = e' := Option.some_inj.mp hl'
            rw [← he'] at hc'
            exact ⟨_, hc', hr'⟩
        obtain ⟨c, hcmem, hcr⟩ := hx'
        have hcr1 := childReach_congr hcr (hagreeC c hcmem)
        rw [lookupEx_delKey_ne _ _ _ hxd]
        exact hremF x ⟨c, hcmem, hcr1⟩
    · intro k hk
      have hkd : k ≠ d := fun h => hk (by rw [h]; exact ChildReach.refl d)
      rw [hres1, lookupEx_delKey_ne _ _ _ hkd]
      have hnk1 : ¬ ∃ c ∈ ed.children_ids,
          ChildReach (detachFromParent t.exchanges ed d) c k := by
        rintro ⟨c, hcmem, hcr⟩
        exact hk (.step ed hl hcmem
          (childReach_congr_rev (hagreeC c hcmem) hcr (.refl c)))
      rw [hsurF k hnk1, hform1 k]
      cases hkl : lookupEx t.exchanges k with
      | none => rfl
      | some e0 =>
        simp only [Option.map_some']
        congr 1
        apply childrenErasedAll_id
        intro c hcmem hcin
        have hcin0 : c ∈ e0.children_ids := childErased_mem hcin
        have hcl1 := (hlc k e0 hkl).2.2 c hcin0
        have hcl2 := (hlc d ed hl).2.2 c hcmem
        exact hkd (parent_determined hcl1 hcl2)

/-- C1: on a well-formed tree (distinct non-empty keys, bidirectionally
consistent parent/child links, a rank function bounding depth — the shape
every tree built by the operations has), `delete_exchange` of a present
id removes that exchange and every descendant reachable through
`children_ids` and returns true; on an absent id it returns false and
leaves the tree unchanged; and afterwards no remaining exchange's
`parent_id` references a now-deleted id. -/
theorem c1_delete_cascades (t : ExchangeTree) (d : String) (rank : String → Nat)
    (hnd : NodupKeys t.exchanges) (hch : ChildrenOk t.exchanges)
    (hrk : RankOk t.exchanges rank) (hrb : RankBound t.exchanges rank)
    (hpb : ParentBackOk t.exchanges) :
    (∀ ed, lookupEx t.exchanges d = some ed →
      (delete_exchange t d).2 = true ∧
      (∀ x, ChildReach t.exchanges d x →
        hasKey (delete_exchange t d).1.exchanges x = false)) ∧
    (lookupEx t.exchanges d = none → delete_exchange t d = (t, false)) ∧
    (∀ k e, lookupEx (delete_exchange t d).1.exchanges k = some e →
      ∀ q, e.parent_id = some q → hasKey t.exchanges q = true →
        hasKey (delete_exchange t d).1.exchanges q = true) := by
  have hlc : LookChildrenOk t.exchanges :=
    fun k e h => hch (k, e) (mem_of_lookupEx_eq_some h)
  have hlr : LookRankOk t.exchanges rank :=
    fun k e h c hc => hrk (k, e) (mem_of_lookupEx_eq_some h) c hc
  have heq : delete_exchange t d = deleteExchangeFuel (t.exchanges.length + 1) t d := rfl
  refine ⟨?_, ?_, ?_⟩
  · intro ed hld
    have hfl : rank d < t.exchanges.length + 1 :=
      Nat.lt_succ_of_le (hrb (d, ed) (mem_of_lookupEx_eq_some hld))
    obtain ⟨hb, -, -, -, hrem, -⟩ :=
      deleteFuel_master (t.exchanges.length + 1) t d rank ed hnd hlc hlr hld hfl
    rw [heq]
    refine ⟨hb, ?_⟩
    intro x hx
    unfold hasKey
    rw [hrem x hx]
    rfl
  · intro hld
    rw [heq]
    simp [deleteExchangeFuel, hld]
  · cases hld : lookupEx t.exchanges d with
    | none =>
      have hsame : delete_exchange t d = (t, false) := by
        rw [heq]
        simp [deleteExchangeFuel, hld]
      rw [hsame]
      intro k e _ q _ hqt
      exact hqt
    | some ed =>
      have hfl : rank d < t.exchanges.length + 1 :=
        Nat.lt_succ_of_le (hrb (d, ed) (mem_of_lookupEx_eq_some hld))
      obtain ⟨-, -, -, -, hrem, hsur⟩ :=
        deleteFuel_master (t.exchanges.length + 1) t d rank ed hnd hlc hlr hld hfl
      rw [heq]
      intro k e hke q hq hqt
      have hknr : ¬ ChildReach t.exchanges d k := by
        intro hr
        rw [hrem k hr] at hke
        cases hke
      have hkf := hsur k hknr
      rw [hkf] at hke
      cases hk0 : lookupEx t.exchanges k with
      | none =>
        rw [hk0] at hke
        cases hke
      | some e0 =>
        rw [hk0] at hke
        simp only [Option.map_some'] at hke
        have he : childErased d e0 = e := Option.some_inj.mp hke
        have hq0 : e0.parent_id = some q := by
          rw [← childErased_parent d e0, he]
          exact hq
        have hqnr : ¬ ChildReach t.exchanges d q := by
          intro hqr
          have hkmem := mem_of_lookupEx_eq_some hk0
          cases hql : lookupEx t.exchanges q with
          | none =>
            unfold hasKey at hqt
            rw [hql] at hqt
            cases hqt
          | some qe =>
            have hkin : k ∈ qe.children_ids := hpb (k, e0) hkmem q hq0 qe hql
            exact hknr (childReach_extend hqr hql hkin)
        unfold hasKey
        rw [hsur q hqnr]
        cases hql : lookupEx t.exchanges q with
        | none =>
          unfold hasKey at hqt
          rw [hql] at hqt
          cases hqt
        | some qe => rfl

/-- C1 witness on the sample chain: deleting "b" removes "b" and its
descendant "c", returns true, and the surviving root "a" references no
deleted exchange. -/
theorem c1_delete_cascades_witness :
    (NodupKeys sampleChain.exchanges ∧ ChildrenOk sampleChain.exchanges ∧
     RankOk sampleChain.exchanges sampleRank ∧ RankBound sampleChain.exchanges sampleRank ∧
     ParentBackOk sampleChain.exchanges) ∧
    ((∀ ed, lookupEx sampleChain.exchanges "b" = some ed →
      (delete_exchange sampleChain "b").2 = true ∧
      (∀ x, ChildReach sampleChain.exchanges "b" x →
        hasKey (delete_exchange sampleChain "b").1.exchanges x = false)) ∧
    (lookupEx sampleChain.exchanges "b" = none →
      delete_exchange sampleChain "b" = (sampleChain, false)) ∧
    (∀ k e, lookupEx (delete_exchange sampleChain "b").1.exchanges k = some e →
      ∀ q, e.parent_id = some q → hasKey sampleChain.exchanges q = true →
        hasKey (delete_exchange sampleChain "b").1.exchanges q = true)) :=
  ⟨⟨by decide, by decide, by decide, by decide, by decide⟩,
   c1_delete_cascades sampleChain "b" sampleRank
     (by decide) (by decide) (by decide) (by decide) (by decide)⟩
